import Mathlib

/-!
# VaultSeek core — shallow embedding and verification

This file embeds the core of the VaultSeek file-name search engine
(`crates/vaultseek_core/src`) in Lean 4 and proves / refutes the frozen
claims about it.

Modelling conventions:
* Rust `usize` arithmetic is modelled on `Nat` with an explicit `% 2^64`
  wherever the Rust code can wrap in release mode.
* Rust strings are modelled as `List Char`; `str::to_lowercase` and the
  case-insensitive literal regex matching of the `regex` crate are both
  modelled by per-character simple lowercasing (`Char.toLower`).
  Byte-wise `&str` comparison is modelled by lexicographic comparison of
  the character lists (UTF-8 byte order coincides with code-point order).
* Code paths that panic (index out of bounds, `unreachable!`, arithmetic
  underflow in a `usize` subtraction followed by an out-of-bounds access)
  are modelled by an explicit `RustResult.panicked` value, so that a
  panic is distinguishable from an ordinary `None`/empty return.
-/

namespace VaultSeek

/-- Result of running a piece of Rust code that may panic. -/
inductive RustResult (α : Type) where
  | ok : α → RustResult α
  | panicked : RustResult α
  deriving DecidableEq, Repr

/-! ## §4.2 CompressedPostings (`indexer/bigram_index.rs`)

`CompressedPostingsList::new` gap-codes a sequence of `usize` indices with
base-128 variable-byte coding (terminator high bit on the last byte of each
value); `decompress` reverses it.  `usize` is 64-bit. -/

/-- `2^64`, the modulus of Rust `usize` arithmetic on a 64-bit target. -/
def wsize : Nat := 2 ^ 64

/-- Wrapping `usize` subtraction `a - b` (release-mode semantics of
`i as usize - last_i as usize` in `CompressedPostingsList::new`). -/
def wrapSub (a b : Nat) : Nat := (a % wsize + (wsize - b % wsize)) % wsize

/-- The 7-bit groups of `v`, least-significant first (the successive
`value & 0x7F` bytes produced by the `while value >= 128` loop followed by
the final `bytes[bytes_index] = (value & 0x7F)` store).  Always nonempty. -/
def vbGroups (v : Nat) : List Nat :=
  if h : v < 128 then [v]
  else v % 128 :: vbGroups (v / 128)
decreasing_by exact Nat.div_lt_self (by omega) (by omega)

/-- Encoding of one gap: the code stores the 7-bit groups LSB-first in
`bytes`, sets the high bit on `bytes[0]` (the LSB group), and pushes the
buffer in reverse, so the output is MSB-first with the high bit marking the
final byte of the value. -/
def encodeGap (v : Nat) : List Nat :=
  match vbGroups v with
  | [] => []
  | h :: t => ((h + 128) :: t).reverse

/-- The encoder loop of `CompressedPostingsList::new` over the posting list,
carrying `last_i`. -/
def compressBytes : List Nat → Nat → List Nat
  | [], _ => []
  | i :: rest, last => encodeGap (wrapSub i last) ++ compressBytes rest i

/-- `CompressedPostingsList`: the compressed byte buffer plus the stored
element count. -/
structure CompressedPostingsList where
  indices : List Nat
  length : Nat
  deriving DecidableEq, Repr

/-- `CompressedPostingsList::new`. -/
def CompressedPostingsList.new (postingsList : List Nat) : CompressedPostingsList :=
  { indices := compressBytes postingsList 0, length := postingsList.length }

/-- The decoder loop of `CompressedPostingsList::decompress`:
state is `(current_value, last_value)`; a byte `< 128` shifts into the
accumulator, a byte `≥ 128` contributes its low 7 bits, finishes the value
and emits `last_value + value`.  The shift-or and the running sum are
`usize` operations, hence the `% wsize`. -/
def decompressBytes : List Nat → Nat → Nat → List Nat
  | [], _, _ => []
  | b :: rest, cur, last =>
    if b < 128 then
      decompressBytes rest ((cur * 128 + b) % wsize) last
    else
      let v := (cur * 128 + (b - 128)) % wsize
      let nl := (last + v) % wsize
      nl :: decompressBytes rest 0 nl

/-- `CompressedPostingsList::decompress`. -/
def CompressedPostingsList.decompress (c : CompressedPostingsList) : List Nat :=
  decompressBytes c.indices 0 0

/-! ### Round-trip proof for the postings codec -/

/-- Accumulator semantics of the decoder: shifting the groups of `l` into `c`. -/
def vbFold (c : Nat) (l : List Nat) : Nat := l.foldl (fun a b => a * 128 + b) c

theorem vbFold_nil (c : Nat) : vbFold c [] = c := rfl

theorem vbFold_cons (c g : Nat) (l : List Nat) :
    vbFold c (g :: l) = vbFold (c * 128 + g) l := rfl

theorem vbFold_append (c : Nat) (l₁ l₂ : List Nat) :
    vbFold c (l₁ ++ l₂) = vbFold (vbFold c l₁) l₂ := by
  simp [vbFold, List.foldl_append]

theorem le_vbFold (c : Nat) (l : List Nat) : c ≤ vbFold c l := by
  induction l generalizing c with
  | nil => exact Nat.le_refl c
  | cons g t ih =>
    calc c ≤ c * 128 + g := by nlinarith
    _ ≤ vbFold (c * 128 + g) t := ih _
    _ = vbFold c (g :: t) := rfl

theorem vbGroups_mem_lt (v : Nat) : ∀ g ∈ vbGroups v, g < 128 := by
  induction v using Nat.strong_induction_on with
  | _ v ih =>
    intro g hg
    unfold vbGroups at hg
    by_cases h : v < 128
    · simp [h] at hg; omega
    · simp [h] at hg
      rcases hg with hg | hg
      · omega
      · exact ih (v / 128) (Nat.div_lt_self (by omega) (by omega)) g hg

theorem vbGroups_ne_nil (v : Nat) : vbGroups v ≠ [] := by
  unfold vbGroups
  by_cases h : v < 128 <;> simp [h]

theorem vbFold_reverse_vbGroups (v : Nat) : vbFold 0 (vbGroups v).reverse = v := by
  induction v using Nat.strong_induction_on with
  | _ v ih =>
    unfold vbGroups
    by_cases h : v < 128
    · simp [h, vbFold]
    · simp only [h, dif_neg, not_false_iff, List.reverse_cons]
      rw [vbFold_append, ih (v / 128) (Nat.div_lt_self (by omega) (by omega))]
      simp [vbFold]
      omega

/-- Decoding one value: reading the unmarked MSB-first groups `gs` followed by
the marked final byte `v128 + 128` accumulates `vbFold c gs * 128 + v128`,
emits it (added to `last`), and continues with a reset accumulator. -/
theorem decompressBytes_value (gs : List Nat) (c v128 last : Nat) (rest : List Nat)
    (hgs : ∀ g ∈ gs, g < 128) (hv : v128 < 128)
    (hb : vbFold c gs * 128 + v128 < wsize) :
    decompressBytes (gs ++ (v128 + 128) :: rest) c last =
      ((last + (vbFold c gs * 128 + v128)) % wsize) ::
        decompressBytes rest 0 ((last + (vbFold c gs * 128 + v128)) % wsize) := by
  induction gs generalizing c with
  | nil =>
    simp only [List.nil_append, decompressBytes, vbFold_nil]
    have h1 : ¬ (v128 + 128 < 128) := by omega
    have h2 : v128 + 128 - 128 = v128 := by omega
    simp only [h1, if_false, h2]
    have h3 : (c * 128 + v128) % wsize = c * 128 + v128 := Nat.mod_eq_of_lt (by simpa using hb)
    simp [h3]
  | cons g t ih =>
    have hg : g < 128 := hgs g (by simp)
    have ht : ∀ x ∈ t, x < 128 := fun x hx => hgs x (by simp [hx])
    have hfold : vbFold c (g :: t) = vbFold (c * 128 + g) t := rfl
    rw [hfold] at hb
    have hcg : c * 128 + g < wsize := by
      have h1 : c * 128 + g ≤ vbFold (c * 128 + g) t := le_vbFold _ _
      have h2 : vbFold (c * 128 + g) t ≤ vbFold (c * 128 + g) t * 128 + v128 := by nlinarith
      omega
    simp only [List.cons_append, decompressBytes, hg, if_true, Nat.mod_eq_of_lt hcg,
      List.append_eq]
    rw [hfold, ih _ ht hb]

/-- Decoding the encoding of a single gap `v < 2^64`. -/
theorem decompressBytes_encodeGap (v last : Nat) (rest : List Nat) (hv : v < wsize) :
    decompressBytes (encodeGap v ++ rest) 0 last =
      ((last + v) % wsize) :: decompressBytes rest 0 ((last + v) % wsize) := by
  rcases hgs : vbGroups v with _ | ⟨h, t⟩
  · exact absurd hgs (vbGroups_ne_nil v)
  · have henc : encodeGap v = t.reverse ++ [h + 128] := by
      unfold encodeGap; rw [hgs]; simp
    rw [henc]
    have hmem : ∀ g ∈ vbGroups v, g < 128 := vbGroups_mem_lt v
    have hh : h < 128 := hmem h (by rw [hgs]; simp)
    have ht : ∀ g ∈ t.reverse, g < 128 := by
      intro g hg
      exact hmem g (by rw [hgs]; simp at hg; simp [hg])
    have hfold : vbFold 0 t.reverse * 128 + h = v := by
      have := vbFold_reverse_vbGroups v
      rw [hgs] at this
      simp only [List.reverse_cons] at this
      rw [vbFold_append] at this
      simpa [vbFold] using this
    have hb : vbFold 0 t.reverse * 128 + h < wsize := by rw [hfold]; exact hv
    have hval := decompressBytes_value t.reverse 0 h last rest ht hh hb
    rw [List.append_assoc, List.singleton_append, hval, hfold]

theorem wrapSub_of_le (a b : Nat) (hb : b ≤ a) (ha : a < wsize) :
    wrapSub a b = a - b := by
  unfold wrapSub
  have hbw : b < wsize := by omega
  rw [Nat.mod_eq_of_lt hbw, Nat.mod_eq_of_lt ha]
  have h1 : a + (wsize - b) = (a - b) + wsize := by omega
  rw [h1, Nat.add_mod_right, Nat.mod_eq_of_lt (by omega)]

/-- Main loop invariant of the round trip: decoding the encoder's output with
a common `last` accumulator reproduces the input, provided the input is
strictly increasing, bounded by `2^64`, and at least `last`. -/
theorem decompress_compressBytes (xs : List Nat) (last : Nat)
    (hhead : ∀ h, xs.head? = some h → last ≤ h)
    (hchain : xs.Chain' (· < ·))
    (hbound : ∀ x ∈ xs, x < wsize) :
    decompressBytes (compressBytes xs last) 0 last = xs := by
  induction xs generalizing last with
  | nil => rfl
  | cons x rest ih =>
    have hx : x < wsize := hbound x (by simp)
    have hlx : last ≤ x := hhead x rfl
    have hgap : wrapSub x last = x - last := wrapSub_of_le x last hlx hx
    simp only [compressBytes, hgap]
    rw [decompressBytes_encodeGap (x - last) last _ (by omega)]
    have hsum : (last + (x - last)) % wsize = x := by
      rw [Nat.add_sub_cancel' hlx, Nat.mod_eq_of_lt hx]
    rw [hsum]
    congr 1
    apply ih
    · intro h hh
      cases rest with
      | nil => simp at hh
      | cons y t =>
        simp at hh
        have := List.Chain'.rel_head hchain
        omega
    · exact hchain.tail
    · intro y hy; exact hbound y (by simp [hy])

/-- **C2.** For every strictly increasing sequence `xs` of non-negative
integers with values up to and including `2^64 - 1`,
`CompressedPostingsList::new(xs).decompress()` equals `xs`; for the empty
sequence the encoded byte buffer is empty and the stored count is 0. -/
theorem C2_postings_roundtrip (xs : List Nat)
    (hchain : xs.Chain' (· < ·)) (hbound : ∀ x ∈ xs, x < 2 ^ 64) :
    (CompressedPostingsList.new xs).decompress = xs ∧
      (CompressedPostingsList.new []).indices = [] ∧
      (CompressedPostingsList.new []).length = 0 := by
  refine ⟨?_, rfl, rfl⟩
  unfold CompressedPostingsList.new CompressedPostingsList.decompress
  exact decompress_compressBytes xs 0 (fun h _ => Nat.zero_le h) hchain hbound

/-- Witness for C2 at the in-repo test vector that exercises values up to
`2^64 - 1`. -/
theorem C2_postings_roundtrip_witness :
    (CompressedPostingsList.new
        [142357, 1844674407370955160, 1844674407370955161,
         18446744073709551600, 18446744073709551615]).decompress =
      [142357, 1844674407370955160, 1844674407370955161,
       18446744073709551600, 18446744073709551615] :=
  (C2_postings_roundtrip
      [142357, 1844674407370955160, 1844674407370955161,
       18446744073709551600, 18446744073709551615]
      (by norm_num [List.chain'_cons, List.chain'_singleton])
      (by norm_num)).1

/-! ## §4.1 FileTree (`file_tree.rs`)

Strings are `List Char`; the string arena `strbuf` is a `List Char` with
`Filename` holding start/end offsets into it (`end` is a Lean keyword, so the
field is called `stop`).  The element arena is a `List Element`. -/

/-- `Filename(usize, usize)`: byte range into the tree's string buffer. -/
structure Filename where
  start : Nat
  stop : Nat
  deriving DecidableEq, Repr

/-- `Filename::len`. -/
def Filename.len (f : Filename) : Nat := f.stop - f.start

/-- `Element`. -/
structure Element where
  filename : Filename
  size : Option Int
  dateModified : Option Int
  dateCreated : Option Int
  attributes : Nat
  parent : Nat
  children : List Nat
  deriving DecidableEq, Repr

/-- `FileTree`. -/
structure FileTree where
  elements : List Element
  strbuf : List Char
  deriving DecidableEq, Repr

/-- The slice `&strbuf[f.start..f.stop]` as a total function (truncating on an
invalid range; panicking/UB callers are handled at their call sites). -/
def sliceStr (buf : List Char) (f : Filename) : List Char :=
  (buf.drop f.start).take (f.stop - f.start)

namespace FileTree

/-- `FileTree::new_filename`: append the string to `strbuf` and return the
handle. -/
def newFilename (t : FileTree) (s : List Char) : FileTree × Filename :=
  ({ t with strbuf := t.strbuf ++ s },
   { start := t.strbuf.length, stop := t.strbuf.length + s.length })

/-- `FileTree::add_element`: push and return the new index. -/
def addElement (t : FileTree) (e : Element) : FileTree × Nat :=
  ({ t with elements := t.elements ++ [e] }, t.elements.length)

/-- `FileTree::with_capacity` (capacity only pre-allocates; the resulting
tree is the empty tree with the synthetic root `"Root"` added by
`add_root`). -/
def withCapacity (_capacity : Nat) : FileTree :=
  let t0 : FileTree := { elements := [], strbuf := [] }
  let (t1, fname) := t0.newFilename ['R', 'o', 'o', 't']
  (t1.addElement
    { filename := fname, size := none, dateModified := none,
      dateCreated := none, attributes := 0, parent := 0, children := [] }).1

/-- `FileTree::len`. -/
def len (t : FileTree) : Nat := t.elements.length

/-- `FileTree::get` (the safe `Vec::get`). -/
def get (t : FileTree) (index : Nat) : Option Element := t.elements[index]?

/-- The filename string of element `index` as a total function: the slice of
`strbuf` denoted by the element's handle, `[]` when the index is invalid.
Used to model the *values* produced by `get_filename` in contexts where the
tree's invariants make the access valid (the panicking behaviour of
`get_filename` itself is `getFilename` below). -/
def keyOf (t : FileTree) (index : Nat) : List Char :=
  match t.elements[index]? with
  | none => []
  | some e => sliceStr t.strbuf e.filename

/-- `FileTree::get_filename`: `&self.elements[index]` panics when `index` is
out of range; the following unchecked slice is in-contract only for handles
produced by `new_filename` (always valid ranges), where it equals
`sliceStr`. -/
def getFilename (t : FileTree) (index : Nat) : RustResult (List Char) :=
  match t.elements[index]? with
  | none => .panicked
  | some e => .ok (sliceStr t.strbuf e.filename)

/-- `FileTree::filename_as_str`: checked slice `&self.strbuf[f.0..f.1]`
(panics on an invalid range), then `from_utf8(..).unwrap_or("")` (identity at
the `List Char` level). -/
def filenameAsStr (t : FileTree) (f : Filename) : RustResult (List Char) :=
  if f.start ≤ f.stop ∧ f.stop ≤ t.strbuf.length then .ok (sliceStr t.strbuf f)
  else .panicked

/-- The `while current_index != 0` loop of `FileTree::get_full_path`,
prepending `format!("{}\\{}", filename, path)` and ascending to the parent.
`fuel` bounds the walk; on well-formed trees (parent index strictly
decreasing) `fuel = index + 1` is never exhausted, and exhaustion models the
non-terminating walk a parent cycle would produce. -/
def getFullPathAux (t : FileTree) : Nat → Nat → List Char → RustResult (List Char)
  | _, 0, path => .ok path
  | 0, _, _ => .panicked
  | fuel + 1, current, path =>
    match t.elements[current]? with
    | none => .panicked
    | some e =>
      let name := sliceStr t.strbuf e.filename
      getFullPathAux t fuel e.parent
        (if path.isEmpty then name else name ++ '\\' :: path)

/-- `FileTree::get_full_path`. -/
def getFullPath (t : FileTree) (index : Nat) : RustResult (List Char) :=
  getFullPathAux t (index + 1) index []

/-- `FileTree::add_child`: push the child index onto the parent's `children`
(panics when `parent` is out of range), overwrite the child's parent link,
push the element. -/
def addChild (t : FileTree) (parent : Nat) (child : Element) :
    RustResult (FileTree × Nat) :=
  match t.elements[parent]? with
  | none => .panicked
  | some e =>
    let childIndex := t.elements.length
    let t1 : FileTree :=
      { t with elements :=
          t.elements.set parent { e with children := e.children ++ [childIndex] } }
    .ok ({ t1 with elements := t1.elements ++ [{ child with parent := parent }] },
         childIndex)

end FileTree

/-! ### Path splitting and byte-order string comparison -/

/-- The separator set of `path.split(&['\\', '/'])`. -/
def isSep (c : Char) : Bool := c = '\\' || c = '/'

/-- Rust `str::split` on the separator set: the (possibly empty) segments
between separators; the empty string yields one empty segment. -/
def splitPath : List Char → List (List Char)
  | [] => [[]]
  | c :: rest =>
    if isSep c then [] :: splitPath rest
    else
      match splitPath rest with
      | [] => [[c]]
      | s :: ss => (c :: s) :: ss

/-- Strict lexicographic order on `List Char` (code-point order, which
coincides with the byte order Rust uses to compare `&str`). -/
def strLt : List Char → List Char → Bool
  | [], [] => false
  | [], _ :: _ => true
  | _ :: _, [] => false
  | a :: as, b :: bs => if a < b then true else if b < a then false else strLt as bs

/-- Index of the first occurrence of `target` in `keys` (meaningful when
`target ∈ keys`). -/
def firstIdxOf : List (List Char) → List Char → Nat
  | [], _ => 0
  | k :: ks, target => if k = target then 0 else firstIdxOf ks target + 1

theorem firstIdxOf_lt_length {keys : List (List Char)} {target : List Char}
    (h : target ∈ keys) : firstIdxOf keys target < keys.length := by
  induction keys with
  | nil => simp at h
  | cons k ks ih =>
    by_cases hk : k = target
    · simp [firstIdxOf, hk]
    · rcases List.mem_cons.mp h with rfl | h'
      · exact absurd rfl hk
      · simp only [firstIdxOf, hk, if_false, List.length_cons]
        exact Nat.succ_lt_succ (ih h')

theorem getElem?_firstIdxOf {keys : List (List Char)} {target : List Char}
    (h : target ∈ keys) : keys[firstIdxOf keys target]? = some target := by
  induction keys with
  | nil => simp at h
  | cons k ks ih =>
    by_cases hk : k = target
    · simp [firstIdxOf, hk]
    · rcases List.mem_cons.mp h with rfl | h'
      · exact absurd rfl hk
      · simp only [firstIdxOf, hk, if_false]
        simpa using ih h'

/-- Model of `slice::binary_search_by_key` via its documented result: on a
slice sorted by the key, `Ok(i)` with the key at `i` equal to the target, or
`Err(i)` with `i` the insertion point keeping the slice sorted (`i` = number
of keys strictly below the target).  On a slice *not* sorted by the key the
Rust result is unspecified; the tree's children-sorted invariant is what
makes `add_or_update_recursive`'s use of it well-defined. -/
def binarySearchByKey (keys : List (List Char)) (target : List Char) :
    Except Nat Nat :=
  if target ∈ keys then .ok (firstIdxOf keys target)
  else .error ((keys.filter (fun k => strLt k target)).length)

/-! ### `FileTree::add_or_update_recursive` -/

namespace FileTree

/-- One descent step of the upsert loop body for segment `part`:
binary-search the current element's children by filename; on a hit descend
to the existing child, on a miss intern the segment, push a new element and
insert its index into the children at the insertion point. -/
def upsertStep (t : FileTree) (current : Nat) (part : List Char) :
    RustResult (FileTree × Nat) :=
  match t.elements[current]? with
  | none => .panicked
  | some e =>
    match binarySearchByKey (e.children.map (keyOf t)) part with
    | .ok pos =>
      match e.children[pos]? with
      | none => .panicked
      | some ci => .ok (t, ci)
    | .error pos =>
      let (t1, fname) := t.newFilename part
      let newElem : Element :=
        { filename := fname, size := none, dateModified := none,
          dateCreated := none, attributes := 0, parent := current,
          children := [] }
      let (t2, childIndex) := t1.addElement newElem
      match t2.elements[current]? with
      | none => .panicked
      | some e2 =>
        let e2' : Element :=
          { e2 with children := e2.children.insertIdx pos childIndex }
        .ok ({ t2 with elements := t2.elements.set current e2' }, childIndex)

/-- The `for part in path.split(..)` loop of `add_or_update_recursive`. -/
def upsertWalk (t : FileTree) (current : Nat) :
    List (List Char) → RustResult (FileTree × Nat)
  | [] => .ok (t, current)
  | part :: rest =>
    match t.upsertStep current part with
    | .panicked => .panicked
    | .ok (t', next) => t'.upsertWalk next rest

/-- `FileTree::add_or_update_recursive`: walk/create the path, then
overwrite the final element's metadata (`expect` panics when the final index
is invalid, which cannot happen). -/
def addOrUpdateRecursive (t : FileTree) (path : List Char)
    (size dateModified dateCreated : Option Int) (attributes : Nat) :
    RustResult (FileTree × Nat) :=
  match t.upsertWalk 0 (splitPath path) with
  | .panicked => .panicked
  | .ok (t', current) =>
    match t'.elements[current]? with
    | none => .panicked
    | some e =>
      let e' : Element :=
        { e with size := size, dateModified := dateModified,
                 dateCreated := dateCreated, attributes := attributes }
      .ok ({ t' with elements := t'.elements.set current e' }, current)

end FileTree

/-! ### Build sequences over the tree's mutators

The claims speak about "any sequence of calls to `with_capacity`,
`add_or_update_recursive`, and `add_child`".  An `FOp` is one such call;
`buildTree` starts from `with_capacity` and applies the calls in order,
propagating panics.  `add_child` takes a caller-built `Element`; callers
(the dataset loaders) intern the filename into the tree via `new_filename`
first, which is how the `addChildOp` constructor builds the element. -/

inductive FOp where
  | upsertOp (path : List Char) (size dm dc : Option Int) (attrs : Nat)
  | addChildOp (parent : Nat) (name : List Char) (size dm dc : Option Int)
      (attrs : Nat)
  deriving DecidableEq, Repr

/-- Is the operation an `add_or_update_recursive` call? -/
def FOp.isUpsert : FOp → Prop
  | .upsertOp _ _ _ _ _ => True
  | .addChildOp _ _ _ _ _ _ => False

def applyOp (t : FileTree) : FOp → RustResult FileTree
  | .upsertOp p s m c a =>
    match t.addOrUpdateRecursive p s m c a with
    | .panicked => .panicked
    | .ok (t', _) => .ok t'
  | .addChildOp parent name s m c a =>
    let (t1, fname) := t.newFilename name
    match t1.addChild parent
        { filename := fname, size := s, dateModified := m, dateCreated := c,
          attributes := a, parent := 0, children := [] } with
    | .panicked => .panicked
    | .ok (t', _) => .ok t'

def buildTreeGo (t : FileTree) : List FOp → RustResult FileTree
  | [] => .ok t
  | op :: ops =>
    match applyOp t op with
    | .panicked => .panicked
    | .ok t' => buildTreeGo t' ops

def buildTree (capacity : Nat) (ops : List FOp) : RustResult FileTree :=
  buildTreeGo (FileTree.withCapacity capacity) ops

/-! ### Tree invariants (§3 of the spec) -/

namespace FileTree

/-- Every non-root element's parent index is strictly below its own index. -/
def ParentMono (t : FileTree) : Prop :=
  ∀ (i : Nat) (e : Element), t.elements[i]? = some e → i ≠ 0 → e.parent < i

/-- Root is its own parent. -/
def RootSelf (t : FileTree) : Prop :=
  ∀ (e : Element), t.elements[0]? = some e → e.parent = 0

/-- Children lists hold valid element indices strictly above their owner
(both mutators only ever append a freshly created index to a children
list). -/
def ChildrenValid (t : FileTree) : Prop :=
  ∀ (i : Nat) (e : Element), t.elements[i]? = some e →
    ∀ c ∈ e.children, i < c ∧ c < t.elements.length

/-- Each child's parent pointer names the owner of the children list it
appears in. -/
def ParentLink (t : FileTree) : Prop :=
  ∀ (i : Nat) (e : Element), t.elements[i]? = some e →
    ∀ c ∈ e.children, ∃ (ec : Element), t.elements[c]? = some ec ∧ ec.parent = i

/-- Filename handles denote valid ranges of `strbuf`. -/
def HandlesValid (t : FileTree) : Prop :=
  ∀ (i : Nat) (e : Element), t.elements[i]? = some e →
    e.filename.start ≤ e.filename.stop ∧ e.filename.stop ≤ t.strbuf.length

/-- Every element's children list is strictly ascending in the children's
filename bytes (which also forbids equally-named siblings). -/
def ChildrenSorted (t : FileTree) : Prop :=
  ∀ (i : Nat) (e : Element), t.elements[i]? = some e →
    List.Pairwise (fun a b => strLt (keyOf t a) (keyOf t b) = true) e.children

/-- The structural well-formedness facts maintained by *all* mutators. -/
structure WfBase (t : FileTree) : Prop where
  nonempty : 0 < t.elements.length
  root : RootSelf t
  mono : ParentMono t
  childValid : ChildrenValid t
  handles : HandlesValid t
  link : ParentLink t

end FileTree

/-! ### C5: out-of-range accessor behaviour -/

/-- **C5 (counterexample).** The claim states `get_filename` on an
out-of-range index returns an empty/none result and never panics; but on the
freshly built one-element tree, `get_filename(1)` indexes `elements[1]` and
panics. -/
theorem C5_counterexample :
    FileTree.getFilename (FileTree.withCapacity 0) 1 = .panicked := by
  decide

/-- **C5 (amended).** On any tree with at least one element (every tree built
through the public constructors contains the root), an out-of-range index
makes `get` return `None`, while `get_filename` and `get_full_path` panic
(`self.elements[index]`). -/
theorem C5_oob_accessors (t : FileTree) (i : Nat)
    (hroot : 1 ≤ t.elements.length) (hi : t.elements.length ≤ i) :
    t.get i = none ∧ t.getFilename i = .panicked ∧
      t.getFullPath i = .panicked := by
  have hnone : t.elements[i]? = none := by
    rw [List.getElem?_eq_none_iff]; exact hi
  refine ⟨?_, ?_, ?_⟩
  · simp [FileTree.get, hnone]
  · simp [FileTree.getFilename, hnone]
  · have hne : i ≠ 0 := by omega
    obtain ⟨j, rfl⟩ : ∃ j, i = j + 1 := ⟨i - 1, by omega⟩
    simp [FileTree.getFullPath, FileTree.getFullPathAux, hnone]

/-- Witness for C5 at the one-element tree and index 1. -/
theorem C5_oob_accessors_witness :
    (FileTree.withCapacity 0).get 1 = none ∧
      (FileTree.withCapacity 0).getFilename 1 = .panicked ∧
      (FileTree.withCapacity 0).getFullPath 1 = .panicked :=
  C5_oob_accessors (FileTree.withCapacity 0) 1 (by decide) (by decide)

/-! ### `strLt` is a strict linear order -/

theorem strLt_irrefl (a : List Char) : strLt a a = false := by
  induction a with
  | nil => rfl
  | cons c t ih => simp [strLt, ih]

theorem strLt_trans {a b c : List Char} (hab : strLt a b = true)
    (hbc : strLt b c = true) : strLt a c = true := by
  induction a generalizing b c with
  | nil =>
    cases c with
    | nil =>
      cases b with
      | nil => exact hab
      | cons y bs => simp [strLt] at hbc
    | cons z cs => simp [strLt]
  | cons x as ih =>
    cases b with
    | nil => simp [strLt] at hab
    | cons y bs =>
      cases c with
      | nil => simp [strLt] at hbc
      | cons z cs =>
        simp only [strLt] at hab hbc ⊢
        rcases lt_trichotomy x y with hxy | rfl | hxy
        · rcases lt_trichotomy y z with hyz | rfl | hyz
          · simp [lt_trans hxy hyz]
          · simp [hxy]
          · rw [if_neg (lt_asymm hyz), if_pos hyz] at hbc
            exact absurd hbc (by simp)
        · rw [if_neg (lt_irrefl x), if_neg (lt_irrefl x)] at hab
          rcases lt_trichotomy x z with hxz | rfl | hxz
          · simp [hxz]
          · rw [if_neg (lt_irrefl x), if_neg (lt_irrefl x)] at hbc ⊢
            exact ih hab hbc
          · rw [if_neg (lt_asymm hxz), if_pos hxz] at hbc
            exact absurd hbc (by simp)
        · rw [if_neg (lt_asymm hxy), if_pos hxy] at hab
          exact absurd hab (by simp)

theorem strLt_total {a b : List Char} (hab : strLt a b = false)
    (hba : strLt b a = false) : a = b := by
  induction a generalizing b with
  | nil =>
    cases b with
    | nil => rfl
    | cons y bs => simp [strLt] at hab
  | cons x as ih =>
    cases b with
    | nil => simp [strLt] at hba
    | cons y bs =>
      simp only [strLt] at hab hba
      rcases lt_trichotomy x y with hxy | rfl | hxy
      · rw [if_pos hxy] at hab
        exact absurd hab (by simp)
      · rw [if_neg (lt_irrefl x), if_neg (lt_irrefl x)] at hab hba
        rw [ih hab hba]
      · rw [if_pos hxy] at hba
        exact absurd hba (by simp)

/-- Inserting a fresh key's carrier at the number-of-smaller-keys position
(the `Err` insertion point of the binary search) keeps a children list
strictly sorted by key. -/
theorem pairwise_insertIdx_binary_pos (cs : List Nat) (k : Nat → List Char)
    (x : Nat)
    (hs : List.Pairwise (fun a b => strLt (k a) (k b) = true) cs)
    (hfresh : k x ∉ cs.map k) :
    List.Pairwise (fun a b => strLt (k a) (k b) = true)
      (List.insertIdx (((cs.map k).filter (fun s => strLt s (k x))).length) x cs) := by
  induction cs with
  | nil => simp
  | cons c t ih =>
    have hne : k c ≠ k x := by
      intro h; exact hfresh (by simp [h])
    have hfresh' : k x ∉ t.map k := fun h => hfresh (by simp [h])
    rcases List.pairwise_cons.mp hs with ⟨hc, ht⟩
    by_cases hcx : strLt (k c) (k x) = true
    · have hfilter :
          ((c :: t).map k).filter (fun s => strLt s (k x)) =
            k c :: ((t.map k).filter (fun s => strLt s (k x))) := by
        simp [hcx]
      rw [hfilter]
      simp only [List.length_cons, List.insertIdx_succ_cons]
      refine List.pairwise_cons.mpr ⟨?_, ih ht hfresh'⟩
      intro b hb
      have hle : ((t.map k).filter (fun s => strLt s (k x))).length ≤ t.length := by
        calc ((t.map k).filter (fun s => strLt s (k x))).length
            ≤ (t.map k).length := List.length_filter_le _ _
        _ = t.length := List.length_map t k
      rcases (List.mem_insertIdx hle).mp hb with hb' | hb'
      · exact hb' ▸ hcx
      · exact hc b hb'
    · have hxc : strLt (k x) (k c) = true := by
        cases h1 : strLt (k x) (k c) with
        | false => exact absurd (strLt_total (by simpa using hcx) h1) hne
        | true => rfl
      have hnone : ∀ s ∈ (c :: t).map k, strLt s (k x) = false := by
        intro s hsmem
        simp only [List.map_cons, List.mem_cons] at hsmem
        rcases hsmem with rfl | hsmem
        · simpa using hcx
        · rcases List.mem_map.mp hsmem with ⟨a, ha, rfl⟩
          cases h2 : strLt (k a) (k x) with
          | false => rfl
          | true =>
            exact absurd (strLt_trans hxc (strLt_trans (hc a ha) h2))
              (by simp [strLt_irrefl])
      have hfilter : ((c :: t).map k).filter (fun s => strLt s (k x)) = [] := by
        apply List.filter_eq_nil_iff.mpr
        intro s hsmem
        simp [hnone s hsmem]
      rw [hfilter]
      simp only [List.length_nil, List.insertIdx_zero]
      refine List.pairwise_cons.mpr ⟨?_, hs⟩
      intro b hb
      rcases List.mem_cons.mp hb with rfl | hb'
      · exact hxc
      · exact strLt_trans hxc (hc b hb')

/-! ### Slice stability -/

theorem sliceStr_append (buf ext : List Char) (f : Filename)
    (h : f.stop ≤ buf.length) : sliceStr (buf ++ ext) f = sliceStr buf f := by
  unfold sliceStr
  rcases Nat.le_total f.start f.stop with hse | hse
  · rw [List.drop_append_of_le_length (le_trans hse h),
      List.take_append_eq_append_take]
    have hz : (f.stop - f.start) - (buf.drop f.start).length = 0 := by
      simp only [List.length_drop]; omega
    rw [hz, List.take_zero, List.append_nil]
  · have hz : f.stop - f.start = 0 := by omega
    simp [hz]

theorem sliceStr_append_self (buf s : List Char) :
    sliceStr (buf ++ s)
      { start := buf.length, stop := buf.length + s.length } = s := by
  unfold sliceStr
  simp

/-- `keyOf` only looks at the element's filename handle and `strbuf`;
appending to `strbuf` does not change it while the handle is valid. -/
theorem keyOf_frame (t : FileTree) (newElems : List Element)
    (ext : List Char) (j : Nat) (ej ej' : Element)
    (hj : t.elements[j]? = some ej) (hj' : newElems[j]? = some ej')
    (hfn : ej'.filename = ej.filename)
    (hvalid : ej.filename.stop ≤ t.strbuf.length) :
    FileTree.keyOf { elements := newElems, strbuf := t.strbuf ++ ext } j =
      FileTree.keyOf t j := by
  unfold FileTree.keyOf
  rw [hj, hj']
  simp only [hfn]
  exact sliceStr_append t.strbuf ext ej.filename hvalid

/-! ### One upsert step preserves the tree invariants -/

theorem upsertStep_spec (t : FileTree) (current : Nat) (part : List Char)
    (hb : FileTree.WfBase t) (hcur : current < t.elements.length) :
    ∃ (t' : FileTree) (next : Nat),
      t.upsertStep current part = .ok (t', next) ∧
      FileTree.WfBase t' ∧
      next < t'.elements.length ∧ next ≠ 0 ∧
      t.elements.length ≤ t'.elements.length ∧
      (FileTree.ChildrenSorted t → FileTree.ChildrenSorted t') ∧
      (∀ j, j < t.elements.length → FileTree.keyOf t' j = FileTree.keyOf t j) ∧
      (∀ (j : Nat) (ej' : Element), j < t.elements.length →
        t'.elements[j]? = some ej' →
        ∃ (ej : Element), t.elements[j]? = some ej ∧ ej'.parent = ej.parent) ∧
      FileTree.keyOf t' next = part ∧
      (∃ (en : Element), t'.elements[next]? = some en ∧ en.parent = current) := by
  obtain ⟨e, he⟩ : ∃ e, t.elements[current]? = some e :=
    ⟨t.elements[current], (List.getElem?_eq_getElem hcur)⟩
  by_cases hmem : part ∈ e.children.map (t.keyOf)
  · -- binary search hit: descend to the existing child, tree unchanged
    have hsearch : binarySearchByKey (e.children.map (t.keyOf)) part =
        .ok (firstIdxOf (e.children.map (t.keyOf)) part) := by
      simp [binarySearchByKey, hmem]
    have hkeypos := getElem?_firstIdxOf hmem
    rw [List.getElem?_map] at hkeypos
    obtain ⟨ci, hci, hkey⟩ :
        ∃ ci, e.children[firstIdxOf (e.children.map (t.keyOf)) part]? = some ci ∧
          t.keyOf ci = part := by
      cases hc : e.children[firstIdxOf (e.children.map (t.keyOf)) part]? with
      | none => exact absurd hkeypos (by simp [hc])
      | some ci =>
        rw [hc] at hkeypos
        refine ⟨ci, rfl, ?_⟩
        simpa using hkeypos
    have hcimem : ci ∈ e.children := List.getElem?_mem hci
    have hvalid := hb.childValid current e he ci hcimem
    obtain ⟨ec, hec, hecp⟩ := hb.link current e he ci hcimem
    refine ⟨t, ci, ?_, hb, hvalid.2, by omega, le_refl _, fun hs => hs, fun _ _ => rfl,
      fun j ej' _ hj' => ⟨ej', hj', rfl⟩, hkey, ec, hec, hecp⟩
    simp only [FileTree.upsertStep, he, hsearch, hci]
  · -- binary search miss: intern the segment and insert a fresh child
    have hsearch : binarySearchByKey (e.children.map (t.keyOf)) part =
        .error (((e.children.map (t.keyOf)).filter
          (fun s => strLt s part)).length) := by
      simp [binarySearchByKey, hmem]
    set n := t.elements.length with hn
    set pos := ((e.children.map (t.keyOf)).filter (fun s => strLt s part)).length
      with hpos
    have hposle : pos ≤ e.children.length := by
      calc pos ≤ (e.children.map (t.keyOf)).length := List.length_filter_le _ _
      _ = e.children.length := List.length_map _ _
    set newElem : Element :=
      { filename := { start := t.strbuf.length,
                      stop := t.strbuf.length + part.length },
        size := none, dateModified := none, dateCreated := none,
        attributes := 0, parent := current, children := [] } with hnew
    have he2 : (t.elements ++ [newElem])[current]? = some e := by
      rw [List.getElem?_append_left hcur]; exact he
    set e2' : Element :=
      { e with children := e.children.insertIdx pos n } with he2'
    set t' : FileTree :=
      { elements := (t.elements ++ [newElem]).set current e2',
        strbuf := t.strbuf ++ part } with ht'
    have hstep : t.upsertStep current part = .ok (t', n) := by
      simp only [FileTree.upsertStep, he, hsearch, FileTree.newFilename,
        FileTree.addElement, he2]
    have hlen' : t'.elements.length = n + 1 := by
      simp [ht', List.length_set]
    have hcurne : current ≠ n := by omega
    -- element lookups in t'
    have hget_cur : t'.elements[current]? = some e2' := by
      rw [ht']
      exact List.getElem?_set_self (by simp; omega)
    have hget_new : t'.elements[n]? = some newElem := by
      rw [ht']
      rw [List.getElem?_set_ne hcurne]
      rw [List.getElem?_append_right (by omega)]
      simp [hn]
    have hget_old : ∀ j, j < n → j ≠ current →
        t'.elements[j]? = t.elements[j]? := by
      intro j hj hjne
      rw [ht']
      rw [List.getElem?_set_ne (fun h => hjne h.symm)]
      exact List.getElem?_append_left hj
    -- parent/filename frame
    have hframe : ∀ (j : Nat) (ej' : Element), j < n →
        t'.elements[j]? = some ej' →
        ∃ (ej : Element), t.elements[j]? = some ej ∧ ej'.parent = ej.parent ∧
          ej'.filename = ej.filename := by
      intro j ej' hj hj'
      by_cases hjc : j = current
      · subst j
        rw [hget_cur] at hj'
        obtain rfl : e2' = ej' := by injection hj'
        exact ⟨e, he, rfl, rfl⟩
      · rw [hget_old j hj hjc] at hj'
        exact ⟨ej', hj', rfl, rfl⟩
    -- keys of old elements unchanged
    have hkeys : ∀ j, j < n → t'.keyOf j = t.keyOf j := by
      intro j hj
      obtain ⟨ej, hej⟩ : ∃ ej, t.elements[j]? = some ej :=
        ⟨t.elements.get ⟨j, hj⟩, List.getElem?_eq_getElem hj⟩
      obtain ⟨ej', hej'⟩ : ∃ ej', t'.elements[j]? = some ej' := by
        by_cases hjc : j = current
        · exact ⟨e2', hjc ▸ hget_cur⟩
        · exact ⟨ej, by rw [hget_old j hj hjc]; exact hej⟩
      obtain ⟨ej2, hej2, _, hfn⟩ := hframe j ej' hj hej'
      rw [hej] at hej2
      obtain rfl : ej = ej2 := by injection hej2
      exact keyOf_frame t t'.elements part j ej ej' hej hej' hfn
        (hb.handles j ej hej).2
    -- key of the fresh element
    have hkeyn : t'.keyOf n = part := by
      unfold FileTree.keyOf
      rw [hget_new]
      exact sliceStr_append_self t.strbuf part
    -- well-formedness of t'
    have hwf' : FileTree.WfBase t' := by
      refine ⟨by omega, ?_, ?_, ?_, ?_, ?_⟩
      · -- RootSelf
        intro e0 h0
        by_cases h0c : current = 0
        · subst h0c
          rw [hget_cur] at h0; cases h0
          exact hb.root e he
        · rw [hget_old 0 (by omega) (fun h => h0c h.symm)] at h0
          exact hb.root e0 h0
      · -- ParentMono
        intro j ej' hj' hjne
        have hjlt : j < n + 1 := by
          by_contra hge
          rw [List.getElem?_eq_none_iff.mpr (by rw [hlen']; omega)] at hj'
          exact Option.noConfusion hj'
        by_cases hjn : j = n
        · subst hjn
          rw [hget_new] at hj'
          obtain rfl : newElem = ej' := by injection hj'
          simpa [hnew] using hcur
        · have hjn' : j < n := by omega
          obtain ⟨ej, hej, hp, _⟩ := hframe j ej' hjn' hj'
          rw [hp]
          exact hb.mono j ej hej hjne
      · -- ChildrenValid
        intro j ej' hj' c hc
        by_cases hjn : j = n
        · subst hjn
          rw [hget_new] at hj'
          obtain rfl : newElem = ej' := by injection hj'
          simp [hnew] at hc
        · have hjlt : j < n + 1 := by
            by_contra hge
            rw [List.getElem?_eq_none_iff.mpr (by rw [hlen']; omega)] at hj'
            exact Option.noConfusion hj'
          have hjn' : j < n := by omega
          by_cases hjc : j = current
          · subst j
            rw [hget_cur] at hj'
            obtain rfl : e2' = ej' := by injection hj'
            simp only [he2'] at hc
            rcases (List.mem_insertIdx hposle).mp hc with rfl | hc'
            · omega
            · have := hb.childValid current e he c hc'
              omega
          · rw [hget_old j hjn' hjc] at hj'
            have := hb.childValid j ej' hj' c hc
            omega
      · -- HandlesValid
        intro j ej' hj'
        by_cases hjn : j = n
        · subst hjn
          rw [hget_new] at hj'
          obtain rfl : newElem = ej' := by injection hj'
          simp [hnew, ht']
        · have hjlt : j < n + 1 := by
            by_contra hge
            rw [List.getElem?_eq_none_iff.mpr (by rw [hlen']; omega)] at hj'
            exact Option.noConfusion hj'
          have hjn' : j < n := by omega
          obtain ⟨ej, hej, _, hfn⟩ := hframe j ej' hjn' hj'
          have := hb.handles j ej hej
          rw [hfn]
          constructor
          · exact this.1
          · simp [ht']; omega
      · -- ParentLink
        intro j ej' hj' c hc
        by_cases hjn : j = n
        · subst hjn
          rw [hget_new] at hj'
          obtain rfl : newElem = ej' := by injection hj'
          simp [hnew] at hc
        · have hjlt : j < n + 1 := by
            by_contra hge
            rw [List.getElem?_eq_none_iff.mpr (by rw [hlen']; omega)] at hj'
            exact Option.noConfusion hj'
          have hjn' : j < n := by omega
          by_cases hjc : j = current
          · subst j
            rw [hget_cur] at hj'
            obtain rfl : e2' = ej' := by injection hj'
            simp only [he2'] at hc
            rcases (List.mem_insertIdx hposle).mp hc with rfl | hc'
            · exact ⟨newElem, hget_new, rfl⟩
            · obtain ⟨ec, hec, hecp⟩ := hb.link current e he c hc'
              have hclt := hb.childValid current e he c hc'
              refine ⟨ec, ?_, hecp⟩
              rw [hget_old c hclt.2 (by omega)]
              exact hec
          · rw [hget_old j hjn' hjc] at hj'
            obtain ⟨ec, hec, hecp⟩ := hb.link j ej' hj' c hc
            have hclt := hb.childValid j ej' hj' c hc
            by_cases hcc : c = current
            · subst c
              rw [he] at hec
              obtain rfl : e = ec := by injection hec
              exact ⟨e2', hget_cur, hecp⟩
            · refine ⟨ec, ?_, hecp⟩
              rw [hget_old c hclt.2 hcc]
              exact hec
    -- sortedness preservation
    have hsort : FileTree.ChildrenSorted t → FileTree.ChildrenSorted t' := by
      intro hs j ej' hj'
      by_cases hjn : j = n
      · subst hjn
        rw [hget_new] at hj'
        obtain rfl : newElem = ej' := by injection hj'
        simp [hnew]
      · have hjlt : j < n + 1 := by
          by_contra hge
          rw [List.getElem?_eq_none_iff.mpr (by rw [hlen']; omega)] at hj'
          exact Option.noConfusion hj'
        have hjn' : j < n := by omega
        by_cases hjc : j = current
        · subst j
          rw [hget_cur] at hj'
          obtain rfl : e2' = ej' := by injection hj'
          simp only [he2']
          have hmapeq : e.children.map (t'.keyOf) = e.children.map (t.keyOf) := by
            apply List.map_congr_left
            intro c hc
            exact hkeys c (hb.childValid current e he c hc).2
          have hposeq : pos =
              ((e.children.map (t'.keyOf)).filter
                (fun s => strLt s (t'.keyOf n))).length := by
            rw [hmapeq, hkeyn]
          have hsorted := hs current e he
          have hsorted' :
              List.Pairwise (fun a b => strLt (t'.keyOf a) (t'.keyOf b) = true)
                e.children := by
            refine List.Pairwise.imp_of_mem ?_ hsorted
            intro a b ha hbmem hab
            rw [hkeys a (hb.childValid current e he a ha).2,
              hkeys b (hb.childValid current e he b hbmem).2]
            exact hab
          have hfresh : t'.keyOf n ∉ e.children.map (t'.keyOf) := by
            rw [hmapeq, hkeyn]
            exact hmem
          have := pairwise_insertIdx_binary_pos e.children (t'.keyOf) n
            hsorted' hfresh
          rw [← hposeq] at this
          exact this
        · rw [hget_old j hjn' hjc] at hj'
          have hsorted := hs j ej' hj'
          refine List.Pairwise.imp_of_mem ?_ hsorted
          intro a b ha hbmem hab
          rw [hkeys a (hb.childValid j ej' hj' a ha).2,
            hkeys b (hb.childValid j ej' hj' b hbmem).2]
          exact hab
    exact ⟨t', n, hstep, hwf', by omega, by omega, by omega, hsort, hkeys,
      fun j ej' hj hj' => (hframe j ej' hj hj').imp
        (fun ej hej => ⟨hej.1, hej.2.1⟩),
      hkeyn, newElem, hget_new, rfl⟩

/-! ### Ancestor name chains

`nameChain t i` is the list of filenames on the path from the root-child
ancestor of `i` down to `i` itself (the root contributes nothing); it is the
specification value that `get_full_path` materialises. -/

def nameChainAux (t : FileTree) : Nat → Nat → List (List Char)
  | _, 0 => []
  | 0, _ + 1 => []
  | fuel + 1, i + 1 =>
    match t.elements[i + 1]? with
    | none => []
    | some e => nameChainAux t fuel e.parent ++ [t.keyOf (i + 1)]

def nameChain (t : FileTree) (i : Nat) : List (List Char) :=
  nameChainAux t i i

theorem nameChainAux_fuel (t : FileTree) (hmono : FileTree.ParentMono t) :
    ∀ (i f1 f2 : Nat), i ≤ f1 → i ≤ f2 →
      nameChainAux t f1 i = nameChainAux t f2 i := by
  intro i
  induction i using Nat.strong_induction_on with
  | _ i ih =>
    intro f1 f2 h1 h2
    match i, f1, f2 with
    | 0, f1, f2 => cases f1 <;> cases f2 <;> rfl
    | i + 1, g1 + 1, g2 + 1 =>
      simp only [nameChainAux]
      cases he : t.elements[i + 1]? with
      | none => rfl
      | some e =>
        dsimp only
        have hp : e.parent < i + 1 := hmono (i + 1) e he (by omega)
        rw [ih e.parent hp g1 g2 (by omega) (by omega)]

theorem nameChain_zero (t : FileTree) : nameChain t 0 = [] := rfl

theorem nameChain_cons (t : FileTree) (hmono : FileTree.ParentMono t)
    (i : Nat) (e : Element) (hi : t.elements[i]? = some e) (hne : i ≠ 0) :
    nameChain t i = nameChain t e.parent ++ [t.keyOf i] := by
  obtain ⟨j, rfl⟩ : ∃ j, i = j + 1 := ⟨i - 1, by omega⟩
  have hp : e.parent < j + 1 := hmono (j + 1) e hi (by omega)
  show nameChainAux t (j + 1) (j + 1) = _
  simp only [nameChainAux, hi]
  rw [nameChainAux_fuel t hmono e.parent j e.parent (by omega) (le_refl _)]
  rfl

/-- `nameChain` is stable across a tree extension that keeps the parents and
keys of the old elements. -/
theorem nameChain_stable (t t' : FileTree)
    (hmono : FileTree.ParentMono t) (hmono' : FileTree.ParentMono t')
    (hlen : t.elements.length ≤ t'.elements.length)
    (hkeys : ∀ j, j < t.elements.length → t'.keyOf j = t.keyOf j)
    (hframe : ∀ (j : Nat) (ej' : Element), j < t.elements.length →
      t'.elements[j]? = some ej' →
      ∃ (ej : Element), t.elements[j]? = some ej ∧ ej'.parent = ej.parent) :
    ∀ i, i < t.elements.length → nameChain t' i = nameChain t i := by
  intro i
  induction i using Nat.strong_induction_on with
  | _ i ih =>
    intro hi
    rcases Nat.eq_zero_or_pos i with rfl | hpos
    · rfl
    · obtain ⟨e, he⟩ : ∃ e, t.elements[i]? = some e :=
        ⟨t.elements[i], List.getElem?_eq_getElem hi⟩
      obtain ⟨e', he'⟩ : ∃ e', t'.elements[i]? = some e' :=
        ⟨t'.elements.get ⟨i, by omega⟩, List.getElem?_eq_getElem (by omega)⟩
      obtain ⟨e2, he2, hp⟩ := hframe i e' hi he'
      rw [he] at he2
      obtain rfl : e = e2 := by injection he2
      have hplt : e.parent < i := hmono i e he (by omega)
      rw [nameChain_cons t hmono i e he (by omega),
        nameChain_cons t' hmono' i e' he' (by omega), hp,
        ih e.parent hplt (by omega), hkeys i hi]

/-! ### The upsert walk and the full upsert -/

theorem upsertWalk_spec (segs : List (List Char)) (t : FileTree) (current : Nat)
    (hb : FileTree.WfBase t) (hcur : current < t.elements.length) :
    ∃ (t' : FileTree) (last : Nat),
      t.upsertWalk current segs = .ok (t', last) ∧
      FileTree.WfBase t' ∧
      last < t'.elements.length ∧
      t.elements.length ≤ t'.elements.length ∧
      (FileTree.ChildrenSorted t → FileTree.ChildrenSorted t') ∧
      (∀ j, j < t.elements.length → t'.keyOf j = t.keyOf j) ∧
      (∀ (j : Nat) (ej' : Element), j < t.elements.length →
        t'.elements[j]? = some ej' →
        ∃ (ej : Element), t.elements[j]? = some ej ∧ ej'.parent = ej.parent) ∧
      nameChain t' last = nameChain t current ++ segs ∧
      (segs ≠ [] → last ≠ 0) := by
  induction segs generalizing t current with
  | nil =>
    exact ⟨t, current, rfl, hb, hcur, le_refl _, fun h => h, fun _ _ => rfl,
      fun j ej' _ hj' => ⟨ej', hj', rfl⟩, by simp, fun h => absurd rfl h⟩
  | cons part rest ih =>
    obtain ⟨t1, next, hstep, hb1, hnext, hne0, hlen1, hsort1, hkeys1, hframe1,
      hkey1, en, hen, henp⟩ := upsertStep_spec t current part hb hcur
    obtain ⟨t', last, hwalk, hb', hlast, hlen2, hsort2, hkeys2, hframe2,
      hchain2, _⟩ := ih t1 next hb1 hnext
    have hchain1 : nameChain t1 next = nameChain t current ++ [part] := by
      rw [nameChain_cons t1 hb1.mono next en hen hne0, henp, hkey1,
        nameChain_stable t t1 hb.mono hb1.mono hlen1 hkeys1 hframe1 current hcur]
    refine ⟨t', last, ?_, hb', hlast, le_trans hlen1 hlen2,
      fun hs => hsort2 (hsort1 hs),
      fun j hj => by rw [hkeys2 j (by omega), hkeys1 j hj],
      ?_, ?_, fun _ => ?_⟩
    · simp only [FileTree.upsertWalk, hstep, hwalk]
    · intro j ej' hj hj'
      obtain ⟨ej1, hej1, hp1⟩ := hframe2 j ej' (by omega) hj'
      obtain ⟨ej, hej, hp⟩ := hframe1 j ej1 hj hej1
      exact ⟨ej, hej, by rw [hp1, hp]⟩
    · rw [hchain2, hchain1, List.append_assoc]
      rfl
    · -- once at least one segment is consumed, the walk never returns to root
      rcases rest with _ | ⟨r2, rrest⟩
      · cases hwalk' : t1.upsertWalk next [] with
        | panicked => rw [hwalk'] at hwalk; cases hwalk
        | ok p =>
          rw [hwalk'] at hwalk
          obtain rfl : p = (t', last) := by injection hwalk
          obtain ⟨rfl, rfl⟩ : t1 = t' ∧ next = last := by
            cases hwalk'; exact ⟨rfl, rfl⟩
          exact hne0
      · -- nameChain of `last` ends in a nonempty list of segments, so
        -- `last ≠ 0` because `nameChain t' 0 = []`
        intro h0
        subst h0
        rw [nameChain_zero] at hchain2
        have : (nameChain t1 next ++ (r2 :: rrest)).length = 0 := by
          rw [← hchain2]; rfl
        simp at this

theorem splitPath_ne_nil (p : List Char) : splitPath p ≠ [] := by
  cases p with
  | nil => simp [splitPath]
  | cons c rest =>
    simp only [splitPath]
    by_cases h : isSep c
    · simp [h]
    · simp only [h, if_false]
      cases hs : splitPath rest <;> simp

theorem addOrUpdateRecursive_spec (t : FileTree) (path : List Char)
    (size dm dc : Option Int) (attrs : Nat) (hb : FileTree.WfBase t) :
    ∃ (t' : FileTree) (last : Nat),
      t.addOrUpdateRecursive path size dm dc attrs = .ok (t', last) ∧
      FileTree.WfBase t' ∧
      last < t'.elements.length ∧ last ≠ 0 ∧
      t.elements.length ≤ t'.elements.length ∧
      (FileTree.ChildrenSorted t → FileTree.ChildrenSorted t') ∧
      nameChain t' last = nameChain t 0 ++ splitPath path := by
  obtain ⟨t1, last, hwalk, hb1, hlast, hlen, hsort, hkeys, hframe, hchain,
    hne0⟩ := upsertWalk_spec (splitPath path) t 0 hb hb.nonempty
  have hsegs : splitPath path ≠ [] := splitPath_ne_nil path
  obtain ⟨e, he⟩ : ∃ e, t1.elements[last]? = some e :=
    ⟨t1.elements[last], List.getElem?_eq_getElem hlast⟩
  set e' : Element := { e with size := size, dateModified := dm, dateCreated := dc, attributes := attrs } with he'
  set t' : FileTree := { t1 with elements := t1.elements.set last e' } with ht'
  have hres : t.addOrUpdateRecursive path size dm dc attrs = .ok (t', last) := by
    simp only [FileTree.addOrUpdateRecursive, hwalk, he]
  -- the metadata overwrite changes neither structure nor names
  have hlen' : t'.elements.length = t1.elements.length := by
    simp [ht', List.length_set]
  have hget' : ∀ (j : Nat) (ej' : Element), t'.elements[j]? = some ej' →
      ∃ (ej : Element), t1.elements[j]? = some ej ∧ ej'.parent = ej.parent ∧
        ej'.children = ej.children ∧ ej'.filename = ej.filename := by
    intro j ej' hj'
    by_cases hjl : j = last
    · subst hjl
      rw [ht'] at hj'
      rw [List.getElem?_set_self (by omega)] at hj'
      obtain rfl : e' = ej' := by injection hj'
      exact ⟨e, he, rfl, rfl, rfl⟩
    · rw [ht'] at hj'
      rw [List.getElem?_set_ne (fun h => hjl h.symm)] at hj'
      exact ⟨ej', hj', rfl, rfl, rfl⟩
  have hget'' : ∀ (j : Nat) (ej : Element), t1.elements[j]? = some ej →
      ∃ (ej' : Element), t'.elements[j]? = some ej' := by
    intro j ej hj
    have hjlt : j < t1.elements.length := by
      by_contra hge
      rw [List.getElem?_eq_none_iff.mpr (by omega)] at hj
      exact Option.noConfusion hj
    exact ⟨t'.elements.get ⟨j, by omega⟩, List.getElem?_eq_getElem (by omega)⟩
  have hkeys' : ∀ j, t'.keyOf j = t1.keyOf j := by
    intro j
    unfold FileTree.keyOf
    cases hj' : t'.elements[j]? with
    | none =>
      have hj2 : t1.elements[j]? = none := by
        rw [List.getElem?_eq_none_iff] at hj' ⊢
        omega
      rw [hj2]
    | some ej' =>
      obtain ⟨ej, hej, _, _, hfn⟩ := hget' j ej' hj'
      rw [hej]
      dsimp only
      rw [hfn]
  have hb' : FileTree.WfBase t' := by
    refine ⟨by omega, ?_, ?_, ?_, ?_, ?_⟩
    · intro e0 h0
      obtain ⟨ej, hej, hp, _, _⟩ := hget' 0 e0 h0
      rw [hp]; exact hb1.root ej hej
    · intro j ej' hj' hjne
      obtain ⟨ej, hej, hp, _, _⟩ := hget' j ej' hj'
      rw [hp]; exact hb1.mono j ej hej hjne
    · intro j ej' hj' c hc
      obtain ⟨ej, hej, _, hcs, _⟩ := hget' j ej' hj'
      rw [hcs] at hc
      have := hb1.childValid j ej hej c hc
      omega
    · intro j ej' hj'
      obtain ⟨ej, hej, _, _, hfn⟩ := hget' j ej' hj'
      rw [hfn]
      exact hb1.handles j ej hej
    · intro j ej' hj' c hc
      obtain ⟨ej, hej, _, hcs, _⟩ := hget' j ej' hj'
      rw [hcs] at hc
      obtain ⟨ec, hec, hecp⟩ := hb1.link j ej hej c hc
      obtain ⟨ec', hec'⟩ := hget'' c ec hec
      obtain ⟨ec2, hec2, hp2, _, _⟩ := hget' c ec' hec'
      rw [hec] at hec2
      obtain rfl : ec = ec2 := by injection hec2
      exact ⟨ec', hec', by rw [hp2, hecp]⟩
  have hsort' : FileTree.ChildrenSorted t1 → FileTree.ChildrenSorted t' := by
    intro hs j ej' hj'
    obtain ⟨ej, hej, _, hcs, _⟩ := hget' j ej' hj'
    rw [hcs]
    refine List.Pairwise.imp_of_mem ?_ (hs j ej hej)
    intro a b _ _ hab
    rw [hkeys' a, hkeys' b]
    exact hab
  have hchain' : nameChain t' last = nameChain t1 last := by
    apply nameChain_stable t1 t' hb1.mono hb'.mono (by omega)
      (fun j _ => hkeys' j)
      (fun j ej' _ hj' => (hget' j ej' hj').imp
        (fun ej h => ⟨h.1, h.2.1⟩))
      last hlast
  exact ⟨t', last, hres, hb', by omega, hne0 hsegs, by omega,
    fun hs => hsort' (hsort hs), by rw [hchain', hchain]⟩

/-! ### `add_child` preserves the structural invariants (but not sortedness) -/

theorem addChild_wf (t : FileTree) (parent : Nat) (child : Element)
    (t' : FileTree) (idx : Nat) (hb : FileTree.WfBase t)
    (hch : child.filename.start ≤ child.filename.stop ∧
      child.filename.stop ≤ t.strbuf.length)
    (hchc : child.children = [])
    (h : t.addChild parent child = .ok (t', idx)) : FileTree.WfBase t' := by
  cases he : t.elements[parent]? with
  | none =>
    have hpan : t.addChild parent child = .panicked := by
      simp only [FileTree.addChild, he]
    rw [hpan] at h; cases h
  | some e =>
    have hpar : parent < t.elements.length := by
      by_contra hge
      rw [List.getElem?_eq_none_iff.mpr (by omega)] at he
      exact Option.noConfusion he
    set n := t.elements.length with hn
    set epush : Element := { e with children := e.children ++ [n] } with hepush
    set celem : Element := { child with parent := parent } with hcelem
    set tx : FileTree := { t with elements := (t.elements.set parent epush) ++ [celem] } with htx
    have hstep : t.addChild parent child = .ok (tx, n) := by
      simp only [FileTree.addChild, he]
    rw [hstep] at h
    have hpair : (tx, n) = (t', idx) := by injection h
    obtain rfl : tx = t' := congrArg Prod.fst hpair
    have hlen' : tx.elements.length = n + 1 := by
      rw [htx]; simp [List.length_set]
    have hget_par : tx.elements[parent]? = some epush := by
      rw [htx]
      show ((t.elements.set parent epush) ++ [celem])[parent]? = some epush
      rw [List.getElem?_append_left (by simp [List.length_set]; omega)]
      exact List.getElem?_set_self (by omega)
    have hget_new : tx.elements[n]? = some celem := by
      rw [htx]
      show ((t.elements.set parent epush) ++ [celem])[n]? = some celem
      rw [List.getElem?_append_right (by simp [List.length_set])]
      simp [List.length_set]
    have hget_old : ∀ j, j < n → j ≠ parent →
        tx.elements[j]? = t.elements[j]? := by
      intro j hj hjne
      rw [htx]
      show ((t.elements.set parent epush) ++ [celem])[j]? = t.elements[j]?
      rw [List.getElem?_append_left (by simp [List.length_set]; omega)]
      exact List.getElem?_set_ne (fun hh => hjne hh.symm)
    have hoob : ∀ (j : Nat) (ej' : Element),
        tx.elements[j]? = some ej' →
        (j = n ∧ ej' = celem) ∨
        (j < n ∧ j = parent ∧ ej' = epush) ∨
        (j < n ∧ j ≠ parent ∧ t.elements[j]? = some ej') := by
      intro j ej' hj'
      have hjlt : j < n + 1 := by
        by_contra hge
        rw [List.getElem?_eq_none_iff.mpr (by rw [hlen']; omega)] at hj'
        exact Option.noConfusion hj'
      by_cases hjn : j = n
      · subst hjn
        rw [hget_new] at hj'
        exact Or.inl ⟨rfl, by injection hj' with hh; rw [hh]⟩
      · have hjlt2 : j < n := by omega
        by_cases hjp : j = parent
        · subst hjp
          rw [hget_par] at hj'
          exact Or.inr (Or.inl ⟨hjlt2, rfl, by injection hj' with hh; rw [hh]⟩)
        · rw [hget_old j hjlt2 hjp] at hj'
          exact Or.inr (Or.inr ⟨hjlt2, hjp, hj'⟩)
    refine ⟨by rw [hlen']; omega, ?_, ?_, ?_, ?_, ?_⟩
    · -- RootSelf
      intro e0 h0
      rcases hoob 0 e0 h0 with ⟨h1, _⟩ | ⟨_, h1, h2⟩ | ⟨_, _, h2⟩
      · omega
      · subst h1
        rw [h2, hepush]
        exact hb.root e he
      · exact hb.root e0 h2
    · -- ParentMono
      intro j ej' hj' hjne
      rcases hoob j ej' hj' with ⟨h1, h2⟩ | ⟨h1, h2, h3⟩ | ⟨h1, _, h3⟩
      · subst h1; rw [h2, hcelem]; simpa using hpar
      · subst j
        rw [h3, hepush]
        exact hb.mono parent e he hjne
      · exact hb.mono j ej' h3 hjne
    · -- ChildrenValid
      intro j ej' hj' c hc
      rcases hoob j ej' hj' with ⟨h1, h2⟩ | ⟨h1, h2, h3⟩ | ⟨h1, _, h3⟩
      · subst h1; rw [h2, hcelem] at hc
        simp only [hcelem] at hc
        rw [hchc] at hc
        simp at hc
      · subst j
        rw [h3, hepush] at hc
        simp only [hepush, List.mem_append, List.mem_singleton] at hc
        rcases hc with hc | rfl
        · have := hb.childValid parent e he c hc
          rw [hlen']
          constructor <;> omega
        · rw [hlen']
          constructor <;> omega
      · have := hb.childValid j ej' h3 c hc
        rw [hlen']
        constructor <;> omega
    · -- HandlesValid (strbuf unchanged by add_child itself)
      intro j ej' hj'
      have hsb : tx.strbuf = t.strbuf := by rw [htx]
      rcases hoob j ej' hj' with ⟨h1, h2⟩ | ⟨h1, h2, h3⟩ | ⟨h1, _, h3⟩
      · rw [h2, hcelem, hsb]; exact hch
      · rw [h3, hepush, hsb]; exact hb.handles parent e he
      · rw [hsb]; exact hb.handles j ej' h3
    · -- ParentLink
      intro j ej' hj' c hc
      rcases hoob j ej' hj' with ⟨h1, h2⟩ | ⟨h1, h2, h3⟩ | ⟨h1, hjp, h3⟩
      · subst h1
        rw [h2, hcelem] at hc
        simp only [hcelem] at hc
        rw [hchc] at hc
        simp at hc
      · subst j
        rw [h3, hepush] at hc
        simp only [hepush, List.mem_append, List.mem_singleton] at hc
        rcases hc with hc | rfl
        · obtain ⟨ec, hec, hecp⟩ := hb.link parent e he c hc
          have hclt := hb.childValid parent e he c hc
          refine ⟨ec, ?_, hecp⟩
          rw [hget_old c hclt.2 (by omega)]
          exact hec
        · exact ⟨celem, hget_new, rfl⟩
      · obtain ⟨ec, hec, hecp⟩ := hb.link j ej' h3 c hc
        have hclt := hb.childValid j ej' h3 c hc
        by_cases hcp : c = parent
        · subst hcp
          rw [he] at hec
          obtain rfl : e = ec := by injection hec
          exact ⟨epush, hget_par, hecp⟩
        · refine ⟨ec, ?_, hecp⟩
          rw [hget_old c hclt.2 hcp]
          exact hec

/-- Extending the string arena alone preserves every invariant. -/
theorem wfBase_extend_strbuf (t : FileTree) (ext : List Char)
    (hb : FileTree.WfBase t) :
    FileTree.WfBase { t with strbuf := t.strbuf ++ ext } := by
  refine ⟨hb.nonempty, hb.root, hb.mono, hb.childValid, ?_, hb.link⟩
  intro j ej' hj'
  have := hb.handles j ej' hj'
  constructor
  · exact this.1
  · simp only [List.length_append]; omega

theorem applyOp_wf (t : FileTree) (op : FOp) (t' : FileTree)
    (hb : FileTree.WfBase t) (h : applyOp t op = .ok t') :
    FileTree.WfBase t' ∧
      (FileTree.ChildrenSorted t → op.isUpsert → FileTree.ChildrenSorted t') := by
  cases op with
  | upsertOp p s m c a =>
    obtain ⟨t2, last, heq, hb2, _, _, _, hsort2, _⟩ :=
      addOrUpdateRecursive_spec t p s m c a hb
    simp only [applyOp, heq] at h
    obtain rfl : t2 = t' := by injection h
    exact ⟨hb2, fun hs _ => hsort2 hs⟩
  | addChildOp parent name s m c a =>
    simp only [applyOp, FileTree.newFilename] at h
    set t1 : FileTree := { t with strbuf := t.strbuf ++ name } with ht1
    set child : Element :=
      { filename := { start := t.strbuf.length,
                      stop := t.strbuf.length + name.length },
        size := s, dateModified := m, dateCreated := c, attributes := a,
        parent := 0, children := [] } with hchild
    cases hac : t1.addChild parent child with
    | panicked => rw [hac] at h; cases h
    | ok p =>
      rw [hac] at h
      obtain ⟨t2, idx⟩ := p
      have heq : t2 = t' := by injection h
      rw [← heq]
      have hb1 : FileTree.WfBase t1 := wfBase_extend_strbuf t name hb
      have hwf := addChild_wf t1 parent child t2 idx hb1
        (by constructor <;> simp [hchild, ht1]) (by simp [hchild]) hac
      exact ⟨hwf, fun _ hfalse => absurd hfalse (by simp [FOp.isUpsert])⟩

theorem buildTreeGo_wfBase (ops : List FOp) (t : FileTree) (t' : FileTree)
    (hb : FileTree.WfBase t) (h : buildTreeGo t ops = .ok t') :
    FileTree.WfBase t' := by
  induction ops generalizing t with
  | nil =>
    obtain rfl : t = t' := by
      simp only [buildTreeGo] at h
      injection h
    exact hb
  | cons op rest ih =>
    simp only [buildTreeGo] at h
    cases hop : applyOp t op with
    | panicked => rw [hop] at h; cases h
    | ok t1 =>
      rw [hop] at h
      exact ih t1 (applyOp_wf t op t1 hb hop).1 h

theorem buildTreeGo_sorted (ops : List FOp) (t : FileTree) (t' : FileTree)
    (hb : FileTree.WfBase t) (hs : FileTree.ChildrenSorted t)
    (hall : ∀ op ∈ ops, op.isUpsert)
    (h : buildTreeGo t ops = .ok t') :
    FileTree.ChildrenSorted t' := by
  induction ops generalizing t with
  | nil =>
    obtain rfl : t = t' := by
      simp only [buildTreeGo] at h
      injection h
    exact hs
  | cons op rest ih =>
    simp only [buildTreeGo] at h
    cases hop : applyOp t op with
    | panicked => rw [hop] at h; cases h
    | ok t1 =>
      rw [hop] at h
      obtain ⟨hb1, hsort1⟩ := applyOp_wf t op t1 hb hop
      exact ih t1 hb1 (hsort1 hs (hall op (by simp)))
        (fun o ho => hall o (by simp [ho])) h

theorem withCapacity_wf (cap : Nat) :
    FileTree.WfBase (FileTree.withCapacity cap) ∧
      FileTree.ChildrenSorted (FileTree.withCapacity cap) := by
  have hget : ∀ (i : Nat) (e : Element),
      (FileTree.withCapacity cap).elements[i]? = some e →
      i = 0 ∧ e.parent = 0 ∧ e.children = [] ∧
        e.filename.start = 0 ∧ e.filename.stop = 4 := by
    intro i e hi
    cases i with
    | zero =>
      obtain rfl : _ = e := by injection hi
      exact ⟨rfl, rfl, rfl, rfl, rfl⟩
    | succ j =>
      rw [show (FileTree.withCapacity cap).elements[j + 1]? = none from rfl] at hi
      exact Option.noConfusion hi
  constructor
  · refine ⟨Nat.one_pos, ?_, ?_, ?_, ?_, ?_⟩
    · intro e h0; exact (hget 0 e h0).2.1
    · intro i e hi hne; exact absurd (hget i e hi).1 hne
    · intro i e hi c hc
      rw [(hget i e hi).2.2.1] at hc; simp at hc
    · intro i e hi
      obtain ⟨_, _, _, h1, h2⟩ := hget i e hi
      rw [h1, h2]
      exact ⟨Nat.zero_le 4, Nat.le_refl 4⟩
    · intro i e hi c hc
      rw [(hget i e hi).2.2.1] at hc; simp at hc
  · intro i e hi
    rw [(hget i e hi).2.2.1]
    exact List.Pairwise.nil

/-! ### C3: tree ordering invariants -/

/-- Build sequence refuting C3's claim about `add_child`: two children of the
root added by `add_child` with descending filenames. -/
def c3ops : List FOp :=
  [FOp.addChildOp 0 ['b'] none none none 0,
   FOp.addChildOp 0 ['a'] none none none 0]

def c3tree : FileTree :=
  match buildTree 2 c3ops with
  | .ok t => t
  | .panicked => FileTree.withCapacity 0

/-- **C3 (counterexample).** After `with_capacity(2)`, `add_child(0, "b")`,
`add_child(0, "a")` — a sequence of the claimed mutators — the root's
children list is `["b", "a"]`, which is *not* in ascending filename order:
`add_child` appends without the sorted-merge semantics. -/
theorem C3_counterexample :
    buildTree 2 c3ops = .ok c3tree ∧ ¬ FileTree.ChildrenSorted c3tree := by
  refine ⟨by decide, fun h => ?_⟩
  have h0 := h 0 (c3tree.elements.get ⟨0, by decide⟩) (by decide)
  rw [show (c3tree.elements.get ⟨0, by decide⟩).children = [1, 2] from by decide] at h0
  rw [List.pairwise_cons] at h0
  have hlt := h0.1 2 (by decide)
  revert hlt
  decide

/-- **C3 (amended).** After any sequence of calls to `with_capacity`,
`add_or_update_recursive`, and `add_child` that completes without panicking,
every non-root element's parent index is strictly less than its own index;
and if the sequence used only `add_or_update_recursive`, every element's
children list is also strictly ascending in the children's filename bytes
with no duplicate-named siblings.  (`add_child` preserves parent-index
monotonicity but appends to the children list without re-sorting.) -/
theorem C3_invariants (cap : Nat) (ops : List FOp) (t : FileTree)
    (h : buildTree cap ops = .ok t) :
    FileTree.ParentMono t ∧
      ((∀ op ∈ ops, op.isUpsert) → FileTree.ChildrenSorted t) := by
  obtain ⟨hw, hs⟩ := withCapacity_wf cap
  constructor
  · exact (buildTreeGo_wfBase ops (FileTree.withCapacity cap) t hw h).mono
  · intro hall
    exact buildTreeGo_sorted ops (FileTree.withCapacity cap) t hw hs hall h

def c3wops : List FOp :=
  [FOp.upsertOp ['b'] (some 1) none none 0,
   FOp.upsertOp ['a', '/', 'c'] (some 2) none none 0]

def c3wtree : FileTree :=
  match buildTree 4 c3wops with
  | .ok t => t
  | .panicked => FileTree.withCapacity 0

/-- Witness for C3 on a concrete two-upsert build. -/
theorem C3_invariants_witness :
    FileTree.ParentMono c3wtree ∧
      ((∀ op ∈ c3wops, op.isUpsert) → FileTree.ChildrenSorted c3wtree) :=
  C3_invariants 4 c3wops c3wtree (by decide)

/-! ### C8: path reconstruction through `get_full_path` -/

/-- One loop iteration of `get_full_path`:
`path = format!("{}\\{}", name, path)` unless `path` is still empty. -/
def pathStep (path name : List Char) : List Char :=
  if path.isEmpty then name else name ++ '\\' :: path

/-- Join segments with the `'\\'` separator (the shape `get_full_path`
produces). -/
def joinBS : List (List Char) → List Char
  | [] => []
  | [s] => s
  | s :: rest => s ++ '\\' :: joinBS rest

theorem joinBS_cons₂ (x y : List Char) (rest : List (List Char)) :
    joinBS (x :: y :: rest) = x ++ '\\' :: joinBS (y :: rest) := rfl

theorem joinBS_append_singleton (A : List (List Char)) (x : List Char)
    (hA : A ≠ []) : joinBS (A ++ [x]) = joinBS A ++ '\\' :: x := by
  induction A with
  | nil => exact absurd rfl hA
  | cons a A' ih =>
    cases A' with
    | nil => rfl
    | cons b A'' =>
      calc joinBS ((a :: b :: A'') ++ [x])
          = a ++ '\\' :: joinBS ((b :: A'') ++ [x]) := rfl
        _ = a ++ '\\' :: (joinBS (b :: A'') ++ '\\' :: x) := by
            rw [ih (by simp)]
        _ = (a ++ '\\' :: joinBS (b :: A'')) ++ '\\' :: x := by simp
        _ = joinBS (a :: b :: A'') ++ '\\' :: x := rfl

/-- On a path without `'/'`, splitting and re-joining with `'\\'` is the
identity. -/
theorem joinBS_splitPath (p : List Char) (hsep : ∀ c ∈ p, c ≠ '/') :
    joinBS (splitPath p) = p := by
  induction p with
  | nil => rfl
  | cons c rest ih =>
    have hsep' : ∀ x ∈ rest, x ≠ '/' := fun x hx => hsep x (by simp [hx])
    by_cases hc : isSep c = true
    · have hbs : c = '\\' := by
        rcases Bool.or_eq_true _ _ |>.mp hc with h | h
        · exact of_decide_eq_true h
        · exact absurd (of_decide_eq_true h) (hsep c (by simp))
      have hsplit : splitPath (c :: rest) = [] :: splitPath rest := by
        conv_lhs => rw [splitPath]
        rw [if_pos hc]
      rw [hsplit]
      cases hs : splitPath rest with
      | nil => exact absurd hs (splitPath_ne_nil rest)
      | cons s ss =>
        rw [joinBS_cons₂, List.nil_append, ← hs, ih hsep', hbs]
    · cases hs : splitPath rest with
      | nil => exact absurd hs (splitPath_ne_nil rest)
      | cons s ss =>
        have hsplit : splitPath (c :: rest) = (c :: s) :: ss := by
          conv_lhs => rw [splitPath]
          rw [if_neg hc, hs]
        rw [hsplit]
        rw [hs] at ih
        cases ss with
        | nil =>
          show c :: s = c :: rest
          rw [show joinBS [s] = s from rfl] at ih
          rw [ih hsep']
        | cons s2 ss' =>
          rw [joinBS_cons₂]
          rw [joinBS_cons₂] at ih
          rw [show (c :: s) ++ '\\' :: joinBS (s2 :: ss') =
            c :: (s ++ '\\' :: joinBS (s2 :: ss')) from rfl]
          rw [ih hsep']

theorem pathStep_nil (n : List Char) : pathStep [] n = n := rfl

theorem pathStep_ne_nil (acc n : List Char) (h : acc ≠ []) :
    pathStep acc n = n ++ '\\' :: acc := by
  unfold pathStep
  rw [if_neg (by simpa [List.isEmpty_iff] using h)]

/-- The loop body of `get_full_path`, folded from the deepest name outwards,
produces the `'\\'`-join, provided the deepest name is nonempty (the
`path.is_empty()` check would silently drop a separator otherwise). -/
theorem foldr_pathStep_joinBS (ns : List (List Char))
    (hlast : ∀ l, ns.getLast? = some l → l ≠ []) :
    ns.foldr (fun name acc => pathStep acc name) [] = joinBS ns ∧
      (ns ≠ [] → ns.foldr (fun name acc => pathStep acc name) [] ≠ []) := by
  induction ns with
  | nil => exact ⟨rfl, fun h => absurd rfl h⟩
  | cons n ns' ih =>
    cases ns' with
    | nil =>
      have hn : n ≠ [] := hlast n rfl
      exact ⟨rfl, fun _ => by simpa [pathStep_nil] using hn⟩
    | cons m rest =>
      have hlast' : ∀ l, (m :: rest).getLast? = some l → l ≠ [] := by
        intro l hl
        exact hlast l (by rw [List.getLast?_cons_cons]; exact hl)
      obtain ⟨ihj, ihne⟩ := ih hlast'
      have hne := ihne (by simp)
      have hfold : (n :: m :: rest).foldr (fun name acc => pathStep acc name) [] =
          pathStep ((m :: rest).foldr (fun name acc => pathStep acc name) []) n :=
        rfl
      constructor
      · rw [hfold, pathStep_ne_nil _ _ hne, ihj]
        rfl
      · intro _
        rw [hfold, pathStep_ne_nil _ _ hne]
        simp

/-- The `get_full_path` loop materialises the name chain. -/
theorem getFullPathAux_spec (t : FileTree) (hmono : FileTree.ParentMono t) :
    ∀ (i : Nat), i < t.elements.length →
      ∀ (fuel : Nat) (path : List Char), i < fuel →
        FileTree.getFullPathAux t fuel i path =
          .ok ((nameChain t i).reverse.foldl pathStep path) := by
  intro i
  induction i using Nat.strong_induction_on with
  | _ i ih =>
    intro hi fuel path hfuel
    rcases Nat.eq_zero_or_pos i with rfl | hpos
    · rw [nameChain_zero]
      cases fuel <;> rfl
    · obtain ⟨j, rfl⟩ : ∃ j, i = j + 1 := ⟨i - 1, by omega⟩
      obtain ⟨f, rfl⟩ : ∃ f, fuel = f + 1 := ⟨fuel - 1, by omega⟩
      obtain ⟨e, he⟩ : ∃ e, t.elements[j + 1]? = some e :=
        ⟨t.elements[j + 1], List.getElem?_eq_getElem hi⟩
      have hp : e.parent < j + 1 := hmono (j + 1) e he (by omega)
      have hstep : FileTree.getFullPathAux t (f + 1) (j + 1) path =
          FileTree.getFullPathAux t f e.parent
            (if path.isEmpty then sliceStr t.strbuf e.filename
             else sliceStr t.strbuf e.filename ++ '\\' :: path) := by
        simp only [FileTree.getFullPathAux, he]
      rw [hstep, ih e.parent hp (by omega) f _ (by omega)]
      rw [nameChain_cons t hmono (j + 1) e he (by omega)]
      rw [List.reverse_append]
      have hkey : t.keyOf (j + 1) = sliceStr t.strbuf e.filename := by
        unfold FileTree.keyOf; rw [he]
      simp only [List.reverse_cons, List.reverse_nil, List.nil_append,
        List.singleton_append, List.foldl_cons]
      rw [hkey]
      rfl

/-- `get_full_path` returns the `'\\'`-join of the element's name chain,
provided the chain's deepest name is nonempty. -/
theorem getFullPath_joinBS (t : FileTree) (hmono : FileTree.ParentMono t)
    (i : Nat) (hi : i < t.elements.length)
    (hlast : ∀ l, (nameChain t i).getLast? = some l → l ≠ []) :
    t.getFullPath i = .ok (joinBS (nameChain t i)) := by
  unfold FileTree.getFullPath
  rw [getFullPathAux_spec t hmono i hi (i + 1) [] (by omega)]
  rw [List.foldl_reverse]
  rw [(foldr_pathStep_joinBS (nameChain t i) hlast).1]

/-- **C8 (amended).**  On any built tree, for the element `i` returned by
`add_or_update_recursive(path, ..)` where `path` uses `'\\'` (not `'/'`) as
separator, has at least two segments, and no empty segments:
`full_path(parent(i)) ++ "\\" ++ filename(i)` equals `path`.  (The original
claim fails for `'/'`-separated paths — `full_path` always joins with `'\\'`
— and for single-segment paths, where the reconstruction gains a leading
separator.) -/
theorem C8_path_reconstruction (cap : Nat) (ops : List FOp) (t : FileTree)
    (hbuild : buildTree cap ops = .ok t)
    (path : List Char) (size dm dc : Option Int) (attrs : Nat)
    (t' : FileTree) (i : Nat)
    (hup : t.addOrUpdateRecursive path size dm dc attrs = .ok (t', i))
    (hsep : ∀ c ∈ path, c ≠ '/')
    (hsegs : ∀ s ∈ splitPath path, s ≠ [])
    (hlen2 : 2 ≤ (splitPath path).length) :
    ∃ (e : Element) (pp fn : List Char),
      t'.elements[i]? = some e ∧
      t'.getFullPath e.parent = .ok pp ∧
      t'.getFilename i = .ok fn ∧
      pp ++ '\\' :: fn = path := by
  have hb : FileTree.WfBase t :=
    buildTreeGo_wfBase ops (FileTree.withCapacity cap) t (withCapacity_wf cap).1
      hbuild
  obtain ⟨t2, last, heq, hb', hlast, hne0, _, _, hchain⟩ :=
    addOrUpdateRecursive_spec t path size dm dc attrs hb
  rw [heq] at hup
  have hpair : (t2, last) = (t', i) := by injection hup
  obtain rfl : t' = t2 := (congrArg Prod.fst hpair).symm
  obtain rfl : i = last := (congrArg Prod.snd hpair).symm
  rw [nameChain_zero, List.nil_append] at hchain
  obtain ⟨e, he⟩ : ∃ e, t'.elements[i]? = some e :=
    ⟨t'.elements[i], List.getElem?_eq_getElem hlast⟩
  have hcons := nameChain_cons t' hb'.mono i e he hne0
  -- split the segments as (front ++ [last segment])
  have hchain2 : nameChain t' e.parent ++ [t'.keyOf i] = splitPath path := by
    rw [← hcons, hchain]
  have hfront : nameChain t' e.parent = (splitPath path).dropLast := by
    rw [← hchain2]
    exact List.dropLast_concat.symm
  have hplt : e.parent < t'.elements.length := by
    have := hb'.mono i e he hne0
    omega
  have hfrontne : nameChain t' e.parent ≠ [] := by
    intro hnil
    have hlenchain := congrArg List.length hchain2
    rw [hnil] at hlenchain
    simp at hlenchain
    omega
  have hfp : t'.getFullPath e.parent =
      .ok (joinBS (nameChain t' e.parent)) := by
    apply getFullPath_joinBS t' hb'.mono e.parent hplt
    intro l hl
    apply hsegs
    rw [hfront] at hl
    have hmem : l ∈ (splitPath path).dropLast := List.mem_of_mem_getLast? hl
    exact List.dropLast_subset _ hmem
  have hfn : t'.getFilename i = .ok (t'.keyOf i) := by
    unfold FileTree.getFilename FileTree.keyOf
    rw [he]
  refine ⟨e, joinBS (nameChain t' e.parent), t'.keyOf i, he, hfp, hfn, ?_⟩
  rw [← joinBS_append_singleton _ _ hfrontne, hchain2]
  exact joinBS_splitPath path hsep

def c8path : List Char := ['a', '/', 'b']

def c8res : FileTree × Nat :=
  match (FileTree.withCapacity 1).addOrUpdateRecursive c8path none none none 0 with
  | .ok r => r
  | .panicked => (FileTree.withCapacity 0, 0)

def c8parent : Nat :=
  match c8res.1.elements[c8res.2]? with
  | some e => e.parent
  | none => 0

/-- **C8 (counterexample).** For the `'/'`-separated path `"a/b"`, the
reconstruction `full_path(parent(i)) ++ "\\" ++ filename(i)` yields `"a\\b"`,
not the original `"a/b"`: `full_path` always joins with `'\\'`. -/
theorem C8_counterexample :
    (FileTree.withCapacity 1).addOrUpdateRecursive c8path none none none 0 =
      .ok c8res ∧
    c8res.1.getFullPath c8parent = .ok ['a'] ∧
    c8res.1.getFilename c8res.2 = .ok ['b'] ∧
    ['a'] ++ '\\' :: ['b'] ≠ c8path := by
  refine ⟨by decide, by decide, by decide, by decide⟩

def c8wpath : List Char := ['a', '\\', 'b', '\\', 'c']

def c8wres : FileTree × Nat :=
  match (FileTree.withCapacity 1).addOrUpdateRecursive c8wpath none none none 0 with
  | .ok r => r
  | .panicked => (FileTree.withCapacity 0, 0)

/-- Witness for C8 at the concrete path `"a\\b\\c"` upserted into a fresh
tree. -/
theorem C8_path_reconstruction_witness :
    ∃ (e : Element) (pp fn : List Char),
      c8wres.1.elements[c8wres.2]? = some e ∧
      c8wres.1.getFullPath e.parent = .ok pp ∧
      c8wres.1.getFilename c8wres.2 = .ok fn ∧
      pp ++ '\\' :: fn = c8wpath :=
  C8_path_reconstruction 1 [] (FileTree.withCapacity 1) (by decide)
    c8wpath none none none 0 c8wres.1 c8wres.2 (by decide)
    (by decide) (by decide) (by decide)

/-! ## §4.8 Sorter (`sorter.rs`)

The rank tables (`prepare_*_order`) sort `0..len` by the field comparator
(`sort_unstable_by`) and invert the permutation (`order[index] = i`).
`sort_by_order_list` scatters the subset into a dense `usize::MAX`-sentinel
scratch (modelled as `Option`) and compacts it back into the caller's
buffer, leaving any tail beyond the compaction counter unchanged. -/

inductive SortField where
  | filename | dateModified | dateCreated | size
  deriving DecidableEq, Repr

inductive SortOrder where
  | ascending | descending
  deriving DecidableEq, Repr

/-- First index of `a` in `l` (used to model `order[index] = i` over the
enumerated sort result, which visits each index exactly once). -/
def idxOfN : List Nat → Nat → Nat
  | [], _ => 0
  | x :: xs, a => if x = a then 0 else idxOfN xs a + 1

theorem idxOfN_getElem? {l : List Nat} {a : Nat} (h : a ∈ l) :
    l[idxOfN l a]? = some a := by
  induction l with
  | nil => simp at h
  | cons x xs ih =>
    by_cases hx : x = a
    · simp [idxOfN, hx]
    · rcases List.mem_cons.mp h with rfl | h'
      · exact absurd rfl hx
      · simp only [idxOfN, hx, if_false]
        simpa using ih h'

theorem idxOfN_lt_length {l : List Nat} {a : Nat} (h : a ∈ l) :
    idxOfN l a < l.length := by
  by_contra hge
  have hsome := idxOfN_getElem? h
  rw [List.getElem?_eq_none_iff.mpr (by omega)] at hsome
  exact Option.noConfusion hsome

/-- `Option<i64>::cmp` as a ≤-test: `None` sorts below `Some`. -/
def optIntLe : Option Int → Option Int → Bool
  | none, _ => true
  | some _, none => false
  | some x, some y => decide (x ≤ y)

/-- The per-field `sort_unstable_by` comparator as a ≤-test. -/
def fieldLe (t : FileTree) : SortField → Nat → Nat → Bool
  | .filename, a, b => ! strLt (t.keyOf b) (t.keyOf a)
  | .dateModified, a, b =>
    optIntLe ((t.elements[a]?).bind Element.dateModified)
      ((t.elements[b]?).bind Element.dateModified)
  | .dateCreated, a, b =>
    optIntLe ((t.elements[a]?).bind Element.dateCreated)
      ((t.elements[b]?).bind Element.dateCreated)
  | .size, a, b =>
    optIntLe ((t.elements[a]?).bind Element.size)
      ((t.elements[b]?).bind Element.size)

/-- `prepare_*_order`: sort `0..len` by the comparator, then invert
(`order[index] = i` for `sorted[i] = index`).  `sort_unstable` may break
ties arbitrarily; the model fixes one sort.  All the properties proved below
hold for any rank table that is a permutation of `0..len`, which every
tie-breaking makes true. -/
def prepareOrder (t : FileTree) (field : SortField) : List Nat :=
  let sorted := (List.range t.elements.length).mergeSort (fieldLe t field)
  (List.range t.elements.length).map (fun idx => idxOfN sorted idx)

/-- Scatter position of one subset entry: `order_list[index]` (ascending) or
`len - 1 - order_list[index]` (descending); `none` models the panic on an
out-of-range `index`, and a descending rank above `len - 1` also panics (the
`usize` subtraction wraps and the scratch write is out of bounds). -/
def scatterPos (ol : List Nat) (len : Nat) (desc : Bool) (x : Nat) :
    Option Nat :=
  match ol[x]? with
  | none => none
  | some r =>
    if desc then (if len - 1 < r then none else some (len - 1 - r))
    else some r

/-- The scatter loop of `sort_by_order_list`. -/
def scatterGo (ol : List Nat) (len : Nat) (desc : Bool) :
    List Nat → List (Option Nat) → RustResult (List (Option Nat))
  | [], scratch => .ok scratch
  | x :: rest, scratch =>
    match scatterPos ol len desc x with
    | none => .panicked
    | some p =>
      if p < scratch.length then
        scatterGo ol len desc rest (scratch.set p (some x))
      else .panicked

/-- `Sorter::sort_by_order_list` on a subset `elems`: scatter, then compact
the non-sentinel entries back into the front of the buffer (entries past the
compaction counter keep their old values). -/
def sortByOrderList (elems : List Nat) (ol : List Nat) (ord : SortOrder) :
    RustResult (List Nat) :=
  match scatterGo ol ol.length (ord = .descending) elems
      (List.replicate ol.length none) with
  | .panicked => .panicked
  | .ok scratch =>
    let compacted := scratch.filterMap id
    .ok (compacted ++ elems.drop compacted.length)

/-- `Sorter::sort_by`: the lazily cached rank table for the field, then
`sort_by_order_list`. -/
def sortBy (t : FileTree) (elems : List Nat) (field : SortField)
    (ord : SortOrder) : RustResult (List Nat) :=
  sortByOrderList elems (prepareOrder t field) ord

/-! ### Scatter/compact lemmas -/

theorem filterMap_set_none (S : List (Option Nat)) (p : Nat) (x : Nat)
    (hp : S[p]? = some none) :
    ((S.set p (some x)).filterMap id).Perm (x :: S.filterMap id) := by
  induction S generalizing p with
  | nil => simp at hp
  | cons s S' ih =>
    cases p with
    | zero =>
      obtain rfl : s = none := by
        rw [List.getElem?_cons_zero] at hp
        injection hp
      simp [List.filterMap_cons]
    | succ q =>
      rw [List.getElem?_cons_succ] at hp
      rw [List.set_cons_succ]
      cases s with
      | none =>
        have h1 : ((none :: S'.set q (some x)).filterMap id) =
            (S'.set q (some x)).filterMap id := rfl
        have h2 : ((none :: S').filterMap id) = S'.filterMap id := rfl
        rw [h1, h2]
        exact ih q hp
      | some y =>
        have h1 : ((some y :: S'.set q (some x)).filterMap id) =
            y :: (S'.set q (some x)).filterMap id := rfl
        have h2 : ((some y :: S').filterMap id) = y :: S'.filterMap id := rfl
        rw [h1, h2]
        exact ((ih q hp).cons y).trans (List.Perm.swap x y _)

theorem find?_eq_some_of_unique {l : List Nat} {f : Nat → Bool} {x : Nat}
    (hx : x ∈ l) (hfx : f x = true)
    (huniq : ∀ y ∈ l, f y = true → y = x) : l.find? f = some x := by
  induction l with
  | nil => simp at hx
  | cons a l' ih =>
    by_cases hfa : f a = true
    · have : a = x := huniq a (by simp) hfa
      subst this
      simp [List.find?_cons, hfa]
    · rw [List.find?_cons]
      rw [Bool.not_eq_true] at hfa
      rw [hfa]
      rcases List.mem_cons.mp hx with rfl | hx'
      · exact absurd hfx (by simp [hfa])
      · exact ih hx' (fun y hy hfy => huniq y (by simp [hy]) hfy)

theorem find?_congr_mem {l : List Nat} {f g : Nat → Bool}
    (h : ∀ x ∈ l, f x = g x) : l.find? f = l.find? g := by
  induction l with
  | nil => rfl
  | cons a l' ih =>
    rw [List.find?_cons, List.find?_cons, h a (by simp)]
    cases g a
    · exact ih (fun x hx => h x (by simp [hx]))
    · rfl

/-- Main scatter lemma: with a valid rank table and a duplicate-free,
in-range subset, the scatter loop succeeds; the final scratch is determined
cell-by-cell by which subset entry (if any) lands there, and its compaction
is a permutation of the subset plus whatever the scratch already held. -/
theorem scatterGo_spec (ol : List Nat) (len : Nat) (desc : Bool)
    (hlen : ol.length = len)
    (holval : ∀ (i r : Nat), ol[i]? = some r → r < len)
    (holinj : ∀ (i j r : Nat), ol[i]? = some r → ol[j]? = some r → i = j) :
    ∀ (xs : List Nat) (S : List (Option Nat)), S.length = len → xs.Nodup →
      (∀ x ∈ xs, x < len) →
      (∀ x ∈ xs, ∀ p, scatterPos ol len desc x = some p → S[p]? = some none) →
      ∃ S', scatterGo ol len desc xs S = .ok S' ∧ S'.length = len ∧
        (∀ k, S'[k]? =
          (match xs.find? (fun x => scatterPos ol len desc x == some k) with
           | some x => some (some x)
           | none => S[k]?)) ∧
        (S'.filterMap id).Perm (xs ++ S.filterMap id) := by
  intro xs
  induction xs with
  | nil =>
    intro S hS _ _ _
    exact ⟨S, rfl, hS, fun k => by simp, by simp⟩
  | cons x rest ih =>
    intro S hS hnd hbound hfresh
    have hxlen : x < len := hbound x (by simp)
    obtain ⟨r, hr⟩ : ∃ r, ol[x]? = some r :=
      ⟨ol.get ⟨x, by omega⟩, List.getElem?_eq_getElem (by omega)⟩
    have hrlt : r < len := holval x r hr
    obtain ⟨p, hp, hplt⟩ : ∃ p, scatterPos ol len desc x = some p ∧ p < len := by
      cases desc with
      | false =>
        refine ⟨r, ?_, hrlt⟩
        simp [scatterPos, hr]
      | true =>
        refine ⟨len - 1 - r, ?_, by omega⟩
        simp [scatterPos, hr, show ¬ (len - 1 < r) from by omega]
    have hSp : S[p]? = some none := hfresh x (by simp) p hp
    have hstep : scatterGo ol len desc (x :: rest) S =
        scatterGo ol len desc rest (S.set p (some x)) := by
      simp only [scatterGo, hp]
      rw [if_pos (by omega)]
    have hposinj : ∀ (y z py : Nat), y < len → z < len →
        scatterPos ol len desc y = some py →
        scatterPos ol len desc z = some py → y = z := by
      intro y z py hy hz hpy hpz
      obtain ⟨ry, hry⟩ : ∃ ry, ol[y]? = some ry :=
        ⟨ol.get ⟨y, by omega⟩, List.getElem?_eq_getElem (by omega)⟩
      obtain ⟨rz, hrz⟩ : ∃ rz, ol[z]? = some rz :=
        ⟨ol.get ⟨z, by omega⟩, List.getElem?_eq_getElem (by omega)⟩
      have hry' : ry < len := holval y ry hry
      have hrz' : rz < len := holval z rz hrz
      have hre : ry = rz := by
        cases desc with
        | false =>
          simp [scatterPos, hry] at hpy
          simp [scatterPos, hrz] at hpz
          omega
        | true =>
          simp [scatterPos, hry, show ¬ (len - 1 < ry) from by omega] at hpy
          simp [scatterPos, hrz, show ¬ (len - 1 < rz) from by omega] at hpz
          omega
      exact holinj y z ry hry (hre ▸ hrz)
    have hfresh' : ∀ y ∈ rest, ∀ py,
        scatterPos ol len desc y = some py →
        (S.set p (some x))[py]? = some none := by
      intro y hy py hpy
      have hyne : y ≠ x := fun hh => (List.nodup_cons.mp hnd).1 (hh ▸ hy)
      have hpne : py ≠ p := by
        intro hh
        exact hyne (hposinj y x p (hbound y (by simp [hy])) hxlen
          (hh ▸ hpy) hp)
      rw [List.getElem?_set_ne (fun hh => hpne hh.symm)]
      exact hfresh y (by simp [hy]) py hpy
    obtain ⟨S', hgo, hS', hcells, hperm⟩ := ih (S.set p (some x))
      (by simp [hS]) (List.nodup_cons.mp hnd).2
      (fun y hy => hbound y (by simp [hy])) hfresh'
    refine ⟨S', by rw [hstep, hgo], hS', ?_, ?_⟩
    · intro k
      rw [hcells k]
      by_cases hk : p = k
      · subst hk
        have hnone : rest.find? (fun y => scatterPos ol len desc y == some p) =
            none := by
          rw [List.find?_eq_none]
          intro y hy hbeq
          have hpy : scatterPos ol len desc y = some p := by
            simpa using hbeq
          have hyx : y = x :=
            hposinj y x p (hbound y (by simp [hy])) hxlen hpy hp
          exact (List.nodup_cons.mp hnd).1 (hyx ▸ hy)
        have hfx : (fun y => scatterPos ol len desc y == some p) x = true := by
          simp [hp]
        simp only [List.find?_cons, hfx, hnone]
        exact List.getElem?_set_self (by omega)
      · have hfx : (fun y => scatterPos ol len desc y == some k) x = false := by
          show (scatterPos ol len desc x == some k) = false
          rw [hp]
          simp [hk]
        simp only [List.find?_cons, hfx]
        cases hfind : rest.find? (fun y => scatterPos ol len desc y == some k) with
        | some y => simp [hfind]
        | none => simp [hfind, List.getElem?_set_ne hk]
    · refine hperm.trans ?_
      refine (List.Perm.append_left rest (filterMap_set_none S p x hSp)).trans ?_
      exact List.perm_middle

theorem scatterPos_lt {ol : List Nat} {len : Nat} {desc : Bool} {x p : Nat}
    (holval : ∀ (i r : Nat), ol[i]? = some r → r < len)
    (h : scatterPos ol len desc x = some p) : p < len := by
  unfold scatterPos at h
  cases hr : ol[x]? with
  | none => rw [hr] at h; cases h
  | some r =>
    rw [hr] at h
    have hrlt : r < len := holval x r hr
    cases desc with
    | false =>
      simp at h
      omega
    | true =>
      simp only [if_true] at h
      by_cases hc : len - 1 < r
      · rw [if_pos hc] at h; cases h
      · rw [if_neg hc] at h
        have : len - 1 - r = p := by injection h
        omega

theorem scatterPos_inj {ol : List Nat} {len : Nat} {desc : Bool}
    {y z py : Nat}
    (holval : ∀ (i r : Nat), ol[i]? = some r → r < len)
    (holinj : ∀ (i j r : Nat), ol[i]? = some r → ol[j]? = some r → i = j)
    (hpy : scatterPos ol len desc y = some py)
    (hpz : scatterPos ol len desc z = some py) : y = z := by
  unfold scatterPos at hpy hpz
  cases hry : ol[y]? with
  | none => rw [hry] at hpy; cases hpy
  | some ry =>
    cases hrz : ol[z]? with
    | none => rw [hrz] at hpz; cases hpz
    | some rz =>
      rw [hry] at hpy
      rw [hrz] at hpz
      have hry' : ry < len := holval y ry hry
      have hrz' : rz < len := holval z rz hrz
      have hre : ry = rz := by
        cases desc with
        | false =>
          simp at hpy hpz
          omega
        | true =>
          simp only [if_true] at hpy hpz
          rw [if_neg (by omega : ¬ len - 1 < ry)] at hpy
          rw [if_neg (by omega : ¬ len - 1 < rz)] at hpz
          have h1 : len - 1 - ry = py := by injection hpy
          have h2 : len - 1 - rz = py := by injection hpz
          omega
      exact holinj y z ry hry (hre ▸ hrz)

theorem filterMap_id_replicate_none (n : Nat) :
    (List.replicate n (none : Option Nat)).filterMap id = [] := by
  induction n with
  | zero => rfl
  | succ m ih => simp [List.replicate_succ, List.filterMap_cons, ih]

/-- `sort_by_order_list` on a valid rank table: succeeds, permutes the
subset, and is determined cell-by-cell. -/
theorem sortByOrderList_spec (xs ol : List Nat) (ord : SortOrder)
    (hnd : xs.Nodup) (hbound : ∀ x ∈ xs, x < ol.length)
    (holval : ∀ (i r : Nat), ol[i]? = some r → r < ol.length)
    (holinj : ∀ (i j r : Nat), ol[i]? = some r → ol[j]? = some r → i = j) :
    ∃ S', scatterGo ol ol.length (ord = SortOrder.descending) xs
        (List.replicate ol.length none) = .ok S' ∧
      sortByOrderList xs ol ord = .ok (S'.filterMap id) ∧
      (S'.filterMap id).Perm xs ∧ S'.length = ol.length ∧
      (∀ k, S'[k]? =
        (match xs.find? (fun x =>
            scatterPos ol ol.length (ord = SortOrder.descending) x == some k) with
         | some x => some (some x)
         | none => (List.replicate ol.length (none : Option Nat))[k]?)) := by
  obtain ⟨S', hgo, hS', hcells, hperm⟩ :=
    scatterGo_spec ol ol.length (ord = SortOrder.descending) rfl holval holinj
      xs (List.replicate ol.length none) (by simp) hnd hbound
      (by
        intro x hx p hp
        have hplt : p < ol.length := scatterPos_lt holval hp
        simp [List.getElem?_replicate, hplt])
  have hperm' : (S'.filterMap id).Perm xs := by
    rw [filterMap_id_replicate_none, List.append_nil] at hperm
    exact hperm
  refine ⟨S', hgo, ?_, hperm', hS', hcells⟩
  unfold sortByOrderList
  rw [hgo]
  have hlen : (S'.filterMap id).length = xs.length := hperm'.length_eq
  show RustResult.ok (S'.filterMap id ++ xs.drop (S'.filterMap id).length) = _
  rw [hlen, List.drop_length, List.append_nil]

/-- The scatter result depends only on which indices are in the subset, not
on their order. -/
theorem sortByOrderList_congr_mem (xs ys ol : List Nat) (ord : SortOrder)
    (hndx : xs.Nodup) (hndy : ys.Nodup)
    (hboundx : ∀ x ∈ xs, x < ol.length) (hboundy : ∀ x ∈ ys, x < ol.length)
    (holval : ∀ (i r : Nat), ol[i]? = some r → r < ol.length)
    (holinj : ∀ (i j r : Nat), ol[i]? = some r → ol[j]? = some r → i = j)
    (hmem : ∀ a, a ∈ xs ↔ a ∈ ys) :
    sortByOrderList xs ol ord = sortByOrderList ys ol ord := by
  obtain ⟨Sx, _, hresx, _, hSx, hcellsx⟩ :=
    sortByOrderList_spec xs ol ord hndx hboundx holval holinj
  obtain ⟨Sy, _, hresy, _, hSy, hcellsy⟩ :=
    sortByOrderList_spec ys ol ord hndy hboundy holval holinj
  have hSeq : Sx = Sy := by
    apply List.ext_getElem?
    intro k
    rw [hcellsx k, hcellsy k]
    have hfind : xs.find? (fun x =>
        scatterPos ol ol.length (ord = SortOrder.descending) x == some k) =
      ys.find? (fun x =>
        scatterPos ol ol.length (ord = SortOrder.descending) x == some k) := by
      by_cases hex : ∃ x ∈ xs,
          scatterPos ol ol.length (ord = SortOrder.descending) x = some k
      · obtain ⟨x, hx, hpx⟩ := hex
        rw [find?_eq_some_of_unique hx (by simp [hpx])
          (fun y hy hfy => scatterPos_inj holval holinj (by simpa using hfy) hpx)]
        rw [find?_eq_some_of_unique ((hmem x).mp hx) (by simp [hpx])
          (fun y hy hfy => scatterPos_inj holval holinj (by simpa using hfy) hpx)]
      · rw [List.find?_eq_none.mpr, List.find?_eq_none.mpr]
        · intro y hy hfy
          exact hex ⟨y, (hmem y).mpr hy, by simpa using hfy⟩
        · intro y hy hfy
          exact hex ⟨y, hy, by simpa using hfy⟩
    rw [hfind]
  rw [hresx, hresy, hSeq]

/-- Descending scatter produces exactly the reverse of the ascending
result. -/
theorem sortByOrderList_desc_reverse (xs ol : List Nat)
    (hnd : xs.Nodup) (hbound : ∀ x ∈ xs, x < ol.length)
    (holval : ∀ (i r : Nat), ol[i]? = some r → r < ol.length)
    (holinj : ∀ (i j r : Nat), ol[i]? = some r → ol[j]? = some r → i = j) :
    ∃ ys, sortByOrderList xs ol .ascending = .ok ys ∧
      sortByOrderList xs ol .descending = .ok ys.reverse ∧ ys.Perm xs := by
  obtain ⟨Sa, _, hresa, hperma, hSa, hcellsa⟩ :=
    sortByOrderList_spec xs ol .ascending hnd hbound holval holinj
  obtain ⟨Sd, _, hresd, _, hSd, hcellsd⟩ :=
    sortByOrderList_spec xs ol .descending hnd hbound holval holinj
  have hSrev : Sd = Sa.reverse := by
    apply List.ext_getElem?
    intro k
    by_cases hk : k < ol.length
    · rw [List.getElem?_reverse (by omega)]
      rw [hcellsd k, hcellsa (Sa.length - 1 - k)]
      have hfind : xs.find? (fun x =>
          scatterPos ol ol.length (SortOrder.descending = SortOrder.descending) x
            == some k) =
        xs.find? (fun x =>
          scatterPos ol ol.length (SortOrder.ascending = SortOrder.descending) x
            == some (Sa.length - 1 - k)) := by
        apply find?_congr_mem
        intro x hx
        obtain ⟨r, hr⟩ : ∃ r, ol[x]? = some r :=
          ⟨ol.get ⟨x, hbound x hx⟩, List.getElem?_eq_getElem (hbound x hx)⟩
        have hrlt : r < ol.length := holval x r hr
        have hd : scatterPos ol ol.length
            (SortOrder.descending = SortOrder.descending) x =
            some (ol.length - 1 - r) := by
          simp [scatterPos, hr, show ¬ (ol.length - 1 < r) from by omega]
        have ha : scatterPos ol ol.length
            (SortOrder.ascending = SortOrder.descending) x = some r := by
          simp [scatterPos, hr]
        rw [hd, ha]
        rw [hSa]
        by_cases he : ol.length - 1 - r = k
        · rw [show (some (ol.length - 1 - r) == some k) = true from by simp [he]]
          rw [show (some r == some (ol.length - 1 - k)) = true from by
            simp; omega]
        · rw [show (some (ol.length - 1 - r) == some k) = false from by
            simp [he]]
          rw [show (some r == some (ol.length - 1 - k)) = false from by
            simp; omega]
      rw [hfind, hSa]
      cases hf : xs.find? (fun x =>
          scatterPos ol ol.length (SortOrder.ascending = SortOrder.descending) x
            == some (ol.length - 1 - k)) with
      | some x => rfl
      | none =>
        rw [List.getElem?_replicate, List.getElem?_replicate]
        rw [if_pos hk, if_pos (by omega)]
    · rw [List.getElem?_eq_none_iff.mpr (by omega),
        List.getElem?_eq_none_iff.mpr (by simp [hSa]; omega)]
  refine ⟨Sa.filterMap id, hresa, ?_, hperma⟩
  rw [hresd, hSrev, List.filterMap_reverse]

/-- The rank table built by `prepare_*_order` is a permutation of
`0..len`. -/
theorem prepareOrder_spec (t : FileTree) (field : SortField) :
    (prepareOrder t field).length = t.elements.length ∧
    (∀ (i r : Nat), (prepareOrder t field)[i]? = some r →
      r < (prepareOrder t field).length) ∧
    (∀ (i j r : Nat), (prepareOrder t field)[i]? = some r →
      (prepareOrder t field)[j]? = some r → i = j) := by
  set n := t.elements.length with hn
  set sorted := (List.range n).mergeSort (fieldLe t field) with hsorted
  have hperm : sorted.Perm (List.range n) := List.mergeSort_perm _ _
  have hlen : (prepareOrder t field).length = n := by
    simp [prepareOrder]
  have hget : ∀ (i r : Nat), (prepareOrder t field)[i]? = some r →
      i < n ∧ r = idxOfN sorted i := by
    intro i r h
    have hi : i < n := by
      by_contra hge
      rw [List.getElem?_eq_none_iff.mpr (by omega)] at h
      cases h
    refine ⟨hi, ?_⟩
    unfold prepareOrder at h
    rw [← hn, ← hsorted] at h
    rw [List.getElem?_map, List.getElem?_range hi] at h
    simp only [Option.map_some'] at h
    injection h with h
    omega
  have hslen : sorted.length = n := by
    rw [hperm.length_eq, List.length_range]
  have hmemsorted : ∀ i, i < n → i ∈ sorted := by
    intro i hi
    exact hperm.mem_iff.mpr (List.mem_range.mpr hi)
  refine ⟨hlen, ?_, ?_⟩
  · intro i r h
    obtain ⟨hi, rfl⟩ := hget i r h
    rw [hlen]
    have := idxOfN_lt_length (hmemsorted i hi)
    omega
  · intro i j r hri hrj
    obtain ⟨hi, hei⟩ := hget i r hri
    obtain ⟨hj, hej⟩ := hget j r hrj
    have h1 : sorted[r]? = some i := hei ▸ idxOfN_getElem? (hmemsorted i hi)
    have h2 : sorted[r]? = some j := hej ▸ idxOfN_getElem? (hmemsorted j hj)
    rw [h1] at h2
    injection h2

/-- **C7.** For every tree, every subset of distinct element indices each
less than the tree size, and every sort field: `sort_by` with `Descending`
yields exactly the reverse of the `Ascending` result, re-sorting the
ascending result with the same field and `Ascending` order is a no-op, and
re-sorting the descending result with `Descending` order is a no-op. -/
theorem C7_sort_idempotent_reverse (t : FileTree) (xs : List Nat)
    (field : SortField) (hnd : xs.Nodup)
    (hbound : ∀ x ∈ xs, x < t.elements.length) :
    ∃ ys, sortBy t xs field .ascending = .ok ys ∧
      sortBy t xs field .descending = .ok ys.reverse ∧
      sortBy t ys field .ascending = .ok ys ∧
      sortBy t ys.reverse field .descending = .ok ys.reverse := by
  obtain ⟨hlen, holval, holinj⟩ := prepareOrder_spec t field
  have hbound' : ∀ x ∈ xs, x < (prepareOrder t field).length := by
    intro x hx
    rw [hlen]
    exact hbound x hx
  obtain ⟨ys, hasc, hdesc, hperm⟩ :=
    sortByOrderList_desc_reverse xs (prepareOrder t field) hnd hbound' holval
      holinj
  have hndy : ys.Nodup := hperm.nodup_iff.mpr hnd
  have hboundy : ∀ x ∈ ys, x < (prepareOrder t field).length :=
    fun x hx => hbound' x (hperm.mem_iff.mp hx)
  refine ⟨ys, hasc, hdesc, ?_, ?_⟩
  · unfold sortBy
    rw [sortByOrderList_congr_mem ys xs (prepareOrder t field) .ascending
      hndy hnd hboundy hbound' holval holinj (fun a => hperm.mem_iff)]
    exact hasc
  · unfold sortBy
    rw [sortByOrderList_congr_mem ys.reverse xs (prepareOrder t field)
      .descending (by simpa using hndy) hnd
      (fun x hx => hboundy x (List.mem_reverse.mp hx)) hbound' holval holinj
      (fun a => by rw [List.mem_reverse]; exact hperm.mem_iff)]
    exact hdesc

def c7wops : List FOp :=
  [FOp.upsertOp ['b'] (some 5) none none 0,
   FOp.upsertOp ['a'] (some 3) none none 0]

def c7wtree : FileTree :=
  match buildTree 3 c7wops with
  | .ok t => t
  | .panicked => FileTree.withCapacity 0

/-- Witness for C7 on a concrete three-element tree sorted by size. -/
theorem C7_sort_idempotent_reverse_witness :
    [1, 2].Nodup ∧ (∀ x ∈ [1, 2], x < c7wtree.elements.length) ∧
    ∃ ys, sortBy c7wtree [1, 2] SortField.size SortOrder.ascending = .ok ys ∧
      sortBy c7wtree [1, 2] SortField.size SortOrder.descending =
        .ok ys.reverse ∧
      sortBy c7wtree ys SortField.size SortOrder.ascending = .ok ys ∧
      sortBy c7wtree ys.reverse SortField.size SortOrder.descending =
        .ok ys.reverse :=
  ⟨by decide, by decide,
    C7_sort_idempotent_reverse c7wtree [1, 2] SortField.size (by decide)
      (by decide)⟩

/-! ## §4.5–4.6 Query DSL: lexer, recursive-descent parsing, and dates

Strings are `List Char`; `str::to_lowercase` is modeled per-`Char` with
`Char.toLower` (exact on ASCII, which covers every keyword the code compares
against), and `char::is_whitespace` with `Char.isWhitespace` (they agree on
ASCII).  The recursive functions carry an explicit fuel argument so that they
stay structurally recursive; `PResult.outOfFuel` marks fuel exhaustion and is
distinct from `PResult.panicked`, which models a Rust panic
(`unreachable!`).  A returned `.ok`/`.panicked` is therefore a result the
Rust code really produces, never a fuel artifact.  Clock- and
timezone-dependent branches of `QueryDate::from` (`chrono`'s `Local::now`,
`date_range_to_timestamps`) are abstracted by a `DateEnv` of timestamp
functions; every string-shape test that selects a branch is modeled
concretely. -/

/-- Result of a fueled parsing function: `panicked` models a Rust panic,
`outOfFuel` marks an artificial fuel cutoff. -/
inductive PResult (α : Type) where
  | ok (a : α)
  | panicked
  | outOfFuel
  deriving DecidableEq, Repr

/-- `str::to_lowercase`, per character (exact on ASCII). -/
def toLowerStr (s : List Char) : List Char := s.map Char.toLower

/-- `char::is_whitespace` (agrees with `Char.isWhitespace` on ASCII). -/
def rustIsWhitespace (c : Char) : Bool := c.isWhitespace

/-- `lexer::QueryToken`. -/
inductive QueryToken where
  | colon
  | equal
  | lessThan
  | greaterThan
  | lessThanOrEqual
  | greaterThanOrEqual
  | notTok
  | orTok
  | strLit (s : List Char)
  | ident (s : List Char)
  | whitespace
  deriving DecidableEq, Repr

/-- The `Display` impl for `QueryToken` (used by `to_string()` when the
parsing falls back to literal text). -/
def tokenStr : QueryToken → List Char
  | .colon => [':']
  | .equal => ['=']
  | .lessThan => ['<']
  | .greaterThan => ['>']
  | .lessThanOrEqual => ['<', '=']
  | .greaterThanOrEqual => ['>', '=']
  | .notTok => ['!']
  | .orTok => ['|']
  | .strLit s => s
  | .ident s => s
  | .whitespace => [' ']

/-- `lexer::QueryLexer`: the trimmed input and the read position. -/
structure QueryLexer where
  input : List Char
  readPosition : Nat
  deriving DecidableEq, Repr

/-- `str::trim` (leading and trailing whitespace removed). -/
def trimChars (l : List Char) : List Char :=
  ((l.dropWhile (fun c => rustIsWhitespace c)).reverse.dropWhile
    (fun c => rustIsWhitespace c)).reverse

def QueryLexer.new (input : List Char) : QueryLexer := ⟨trimChars input, 0⟩

def QueryLexer.peekChar (lx : QueryLexer) : Option Char :=
  lx.input[lx.readPosition]?

def QueryLexer.readChar (lx : QueryLexer) : Option Char × QueryLexer :=
  match lx.peekChar with
  | none => (none, lx)
  | some c => (some c, { lx with readPosition := lx.readPosition + 1 })

/-- The loop of `read_while`, by position; the caller passes the exact
remaining length as fuel, so the fuel runs out only at end of input. -/
def readWhileGo (cond : Char → Bool) (input : List Char) :
    Nat → Nat → List Char × Nat
  | 0, pos => ([], pos)
  | fuel + 1, pos =>
    match input[pos]? with
    | none => ([], pos)
    | some c =>
      if cond c then
        let r := readWhileGo cond input fuel (pos + 1)
        (c :: r.1, r.2)
      else ([], pos)

def QueryLexer.readWhile (lx : QueryLexer) (cond : Char → Bool) :
    List Char × QueryLexer :=
  let r := readWhileGo cond lx.input (lx.input.length - lx.readPosition)
    lx.readPosition
  (r.1, { lx with readPosition := r.2 })

/-- `QueryLexer::next_token`, with the match arms in source order. -/
def QueryLexer.nextToken (lx : QueryLexer) : Option QueryToken × QueryLexer :=
  match lx.readChar with
  | (none, lx1) => (none, lx1)
  | (some ch, lx1) =>
    if rustIsWhitespace ch then
      let r := lx1.readWhile (fun c => rustIsWhitespace c)
      (some .whitespace, r.2)
    else if ch = ':' then (some .colon, lx1)
    else if ch = '=' then (some .equal, lx1)
    else if ch = '<' then
      if lx1.peekChar = some '=' then (some .lessThanOrEqual, lx1.readChar.2)
      else (some .lessThan, lx1)
    else if ch = '>' then
      if lx1.peekChar = some '=' then
        (some .greaterThanOrEqual, lx1.readChar.2)
      else (some .greaterThan, lx1)
    else if ch = '!' then (some .notTok, lx1)
    else if ch = '|' then (some .orTok, lx1)
    else if ch = '"' then
      let r := lx1.readWhile (fun c => c ≠ '"')
      (some (.strLit r.1), r.2.readChar.2)
    else
      let r := lx1.readWhile (fun c => !rustIsWhitespace c && c ≠ ':')
      (some (.ident (ch :: r.1)), r.2)

/-- `QueryLexer::peek_token` (runs `next_token` on a clone). -/
def QueryLexer.peekToken (lx : QueryLexer) : Option QueryToken :=
  lx.nextToken.1


/-! Dates -/

/-- `Weekday` (discriminants `Sunday = 0` through `Saturday = 6`). -/
inductive Weekday where
  | sunday | monday | tuesday | wednesday | thursday | friday | saturday
  deriving DecidableEq, Repr

/-- The `#[repr]` discriminant of each `Weekday`. -/
def Weekday.toNat : Weekday → Nat
  | .sunday => 0
  | .monday => 1
  | .tuesday => 2
  | .wednesday => 3
  | .thursday => 4
  | .friday => 5
  | .saturday => 6

/-- `Month` (discriminants `January = 1` through `December = 12`). -/
inductive Month where
  | january | february | march | april | may | june | july | august
  | september | october | november | december
  deriving DecidableEq, Repr

/-- The `#[repr]` discriminant of each `Month`. -/
def Month.toNat : Month → Nat
  | .january => 1
  | .february => 2
  | .march => 3
  | .april => 4
  | .may => 5
  | .june => 6
  | .july => 7
  | .august => 8
  | .september => 9
  | .october => 10
  | .november => 11
  | .december => 12

/-- `QueryDate`; `range start stop` is `Range(start, end)` with `i64`
timestamps. -/
inductive QueryDate where
  | range (start stop : Int)
  | weekday (w : Weekday)
  | month (m : Month)
  | unknown
  deriving DecidableEq, Repr

/-- Abstraction of the clock/timezone-dependent pieces of
`QueryDate::from`: each field returns the `(start, end)` timestamp pair the
corresponding time-dependent branch produces via
`date_range_to_timestamps` (`chrono::Local`). -/
structure DateEnv where
  specialTs : List Char → Int × Int
  numRelTs : List Char → Nat → List Char → Int × Int
  yearTs : Int → Int × Int
  fmtTs : Int → Nat → Nat → Int × Int
  monthTs : Nat → Nat → Int × Int

def digitsToNat (ds : List Char) : Nat :=
  ds.foldl (fun a c => a * 10 + (c.toNat - 48)) 0

/-- Rust `str::parse::<u64>`: optional leading `'+'`, one or more ASCII
digits, value below `2^64`. -/
def parseU64 (s : List Char) : Option Nat :=
  let t := match s with
    | '+' :: rest => rest
    | _ => s
  if t.length ≠ 0 ∧ t.all (fun c => c.isDigit) ∧ digitsToNat t < 2 ^ 64 then
    some (digitsToNat t)
  else none

/-- Rust `str::parse::<i32>`: optional sign, digits, `i32` range. -/
def parseI32 (s : List Char) : Option Int :=
  let p : Bool × List Char := match s with
    | '+' :: rest => (false, rest)
    | '-' :: rest => (true, rest)
    | _ => (false, s)
  let t := p.2
  if t.length ≠ 0 ∧ t.all (fun c => c.isDigit) then
    let v : Int := if p.1 then -(digitsToNat t : Int) else (digitsToNat t : Int)
    if -(2 ^ 31) ≤ v ∧ v ≤ 2 ^ 31 - 1 then some v else none
  else none

/-- The weekday match arms of `QueryDate::from`. -/
def weekdayOf (s : List Char) : Option Weekday :=
  if s = "sunday".toList ∨ s = "sun".toList then some .sunday
  else if s = "monday".toList ∨ s = "mon".toList then some .monday
  else if s = "tuesday".toList ∨ s = "tue".toList then some .tuesday
  else if s = "wednesday".toList ∨ s = "wed".toList then some .wednesday
  else if s = "thursday".toList ∨ s = "thu".toList then some .thursday
  else if s = "friday".toList ∨ s = "fri".toList then some .friday
  else if s = "saturday".toList ∨ s = "sat".toList then some .saturday
  else none

/-- The month match arms of `QueryDate::from`. -/
def monthOf (s : List Char) : Option Month :=
  if s = "january".toList ∨ s = "jan".toList then some .january
  else if s = "february".toList ∨ s = "feb".toList then some .february
  else if s = "march".toList ∨ s = "mar".toList then some .march
  else if s = "april".toList ∨ s = "apr".toList then some .april
  else if s = "may".toList then some .may
  else if s = "june".toList ∨ s = "jun".toList then some .june
  else if s = "july".toList ∨ s = "jul".toList then some .july
  else if s = "august".toList ∨ s = "aug".toList then some .august
  else if s = "september".toList ∨ s = "sep".toList then some .september
  else if s = "october".toList ∨ s = "oct".toList then some .october
  else if s = "november".toList ∨ s = "nov".toList then some .november
  else if s = "december".toList ∨ s = "dec".toList then some .december
  else none

/-- The special date-constant strings (today/yesterday and the
week/month/year keywords), whose results depend on the clock. -/
def specialDateConstants : List (List Char) :=
  ["today", "yesterday",
   "lastweek", "last week", "pastweek", "past week", "prevweek", "prev week",
   "thisweek", "this week", "currentweek", "current week",
   "nextweek", "next week", "comingweek", "coming week",
   "lastmonth", "last month", "pastmonth", "past month", "prevmonth",
   "prev month",
   "thismonth", "this month", "currentmonth", "current month",
   "nextmonth", "next month", "comingmonth", "coming month",
   "lastyear", "last year", "pastyear", "past year", "prevyear", "prev year",
   "thisyear", "this year", "currentyear", "current year",
   "nextyear", "next year", "comingyear", "coming year"].map String.toList

def numRelDirs : List (List Char) :=
  ["last", "past", "prev", "next", "coming"].map String.toList

def numRelUnits : List (List Char) :=
  ["years", "year", "months", "month", "weeks", "week", "days", "day",
   "hours", "hour", "minutes", "minute", "mins", "min",
   "seconds", "second", "secs", "sec"].map String.toList

/-- The anchored regex
`(last|past|prev|next|coming)(\d+)(years?|months?|weeks?|days?|hours?|minutes?|mins?|seconds?|secs?)`
as a deterministic matcher; the amount is `parse::<i64>().unwrap_or(1)`. -/
def numRelMatch (s : List Char) : Option (List Char × Nat × List Char) :=
  match numRelDirs.find? (fun d => d.isPrefixOf s) with
  | none => none
  | some d =>
    let rest := s.drop d.length
    let digits := rest.takeWhile (fun c => c.isDigit)
    let unit := rest.drop digits.length
    if digits.length ≠ 0 ∧ unit ∈ numRelUnits then
      let amt := if digitsToNat digits ≤ 2 ^ 63 - 1 then digitsToNat digits
        else 1
      some (d, amt, unit)
    else none

/-- Split on a separator character, keeping empty groups (`n` separators
give `n+1` groups). -/
def splitOnChar (sep : Char) : List Char → List (List Char)
  | [] => [[]]
  | c :: rest =>
    let r := splitOnChar sep rest
    if c = sep then [] :: r
    else match r with
      | g :: gs => (c :: g) :: gs
      | [] => [[c]]

/-- Proleptic Gregorian leap year (as `chrono` validates dates). -/
def leapYear (y : Int) : Bool :=
  (y % 4 == 0 && y % 100 != 0) || y % 400 == 0

def daysInMonth (y : Int) (m : Nat) : Nat :=
  if m = 2 then (if leapYear y then 29 else 28)
  else if m = 4 ∨ m = 6 ∨ m = 9 ∨ m = 11 then 30
  else 31

def validYMD (y : Int) (m d : Nat) : Bool :=
  decide (1 ≤ m ∧ m ≤ 12 ∧ 1 ≤ d ∧ d ≤ daysInMonth y m)

def digitGroup (lo hi : Nat) (g : List Char) : Bool :=
  decide (lo ≤ g.length ∧ g.length ≤ hi) && g.all (fun c => c.isDigit)

/-- `NaiveDate::parse_from_str` with `"%Y-%m-%d"`: 1-4 digit year, 1-2
digit month/day, calendar-valid. -/
def parseYmdDashes (s : List Char) : Option (Int × Nat × Nat) :=
  match splitOnChar '-' s with
  | [ys, ms, ds] =>
    if digitGroup 1 4 ys ∧ digitGroup 1 2 ms ∧ digitGroup 1 2 ds then
      let y : Int := (digitsToNat ys : Int)
      let m := digitsToNat ms
      let d := digitsToNat ds
      if validYMD y m d then some (y, m, d) else none
    else none
  | _ => none

def validHMS (g : List Char) : Bool :=
  match splitOnChar ':' g with
  | [hs, ms, ss] =>
    digitGroup 1 2 hs && digitGroup 1 2 ms && digitGroup 1 2 ss &&
      decide (digitsToNat hs ≤ 23 ∧ digitsToNat ms ≤ 59 ∧ digitsToNat ss ≤ 59)
  | _ => false

/-- `NaiveDate::parse_from_str` with `"%Y-%m-%d %H:%M:%S"` (the time must
parse; only the date part is kept). -/
def parseYmdHms (s : List Char) : Option (Int × Nat × Nat) :=
  match splitOnChar ' ' s with
  | [datePart, timePart] =>
    match parseYmdDashes datePart with
    | some ymd => if validHMS timePart then some ymd else none
    | none => none
  | _ => none

/-- `NaiveDate::parse_from_str` with `"%m/%d/%Y"` (`monthFirst`) or
`"%d/%m/%Y"`. -/
def parseSlashDate (monthFirst : Bool) (s : List Char) :
    Option (Int × Nat × Nat) :=
  match splitOnChar '/' s with
  | [a, b, ys] =>
    if digitGroup 1 2 a ∧ digitGroup 1 2 b ∧ digitGroup 1 4 ys then
      let y : Int := (digitsToNat ys : Int)
      let m := if monthFirst then digitsToNat a else digitsToNat b
      let d := if monthFirst then digitsToNat b else digitsToNat a
      if validYMD y m d then some (y, m, d) else none
    else none
  | _ => none

/-- The four `date_formats` tried in order. -/
def parseDateFormats (s : List Char) : Option (Int × Nat × Nat) :=
  (parseYmdDashes s).orElse fun _ =>
  (parseYmdHms s).orElse fun _ =>
  (parseSlashDate true s).orElse fun _ =>
  parseSlashDate false s

/-- The anchored regex `(\d\x7b1,4\x7d)/(\d\x7b1,4\x7d)` for `MM/YYYY` or
`YYYY/MM`. -/
def slashMatch (s : List Char) : Option (Nat × Nat) :=
  match splitOnChar '/' s with
  | [a, b] =>
    if digitGroup 1 4 a ∧ digitGroup 1 4 b then
      some (digitsToNat a, digitsToNat b)
    else none
  | _ => none

/-- The tail of `QueryDate::from` after the year test: explicit formats,
then `MM/YYYY`/`YYYY/MM`, then the `Range(0, 0)` sentinel. -/
def dateTail (env : DateEnv) (s : List Char) : QueryDate :=
  match parseDateFormats s with
  | some ymd =>
    let r := env.fmtTs ymd.1 ymd.2.1 ymd.2.2
    .range r.1 r.2
  | none =>
  match slashMatch s with
  | some ab =>
    if 1970 ≤ ab.1 ∧ ab.1 ≤ 9999 ∧ 1 ≤ ab.2 ∧ ab.2 ≤ 12 then
      let r := env.monthTs ab.1 ab.2
      .range r.1 r.2
    else if 1970 ≤ ab.2 ∧ ab.2 ≤ 9999 ∧ 1 ≤ ab.1 ∧ ab.1 ≤ 12 then
      let r := env.monthTs ab.2 ab.1
      .range r.1 r.2
    else .range 0 0
  | none => .range 0 0

/-- `QueryDate::from` on an already-lowercased string, in source branch
order. -/
def queryDateFromLower (env : DateEnv) (s : List Char) : QueryDate :=
  if s = "unknown".toList then .unknown
  else match weekdayOf s with
  | some w => .weekday w
  | none =>
  match monthOf s with
  | some m => .month m
  | none =>
  if s ∈ specialDateConstants then
    let r := env.specialTs s
    .range r.1 r.2
  else match numRelMatch s with
  | some dau =>
    let r := env.numRelTs dau.1 dau.2.1 dau.2.2
    .range r.1 r.2
  | none =>
  match parseI32 s with
  | some year =>
    if 1970 ≤ year ∧ year ≤ 9999 then
      let r := env.yearTs year
      .range r.1 r.2
    else dateTail env s
  | none => dateTail env s

/-- `QueryDate::from`. -/
def queryDateFrom (env : DateEnv) (s : List Char) : QueryDate :=
  queryDateFromLower env (toLowerStr s)

/-! Parser AST -/

/-- `QueryModifiersTracking`. -/
structure QueryModifiersTracking where
  caseSensitive : Bool
  diacriticsSensitive : Bool
  fileOnly : Bool
  folderOnly : Bool
  matchPath : Bool
  regex : Bool
  wholeFilename : Bool
  wholeWord : Bool
  wildcards : Bool
  deriving DecidableEq, Repr

/-- The `Default` impl: every flag `false`. -/
def QueryModifiersTracking.default : QueryModifiersTracking :=
  ⟨false, false, false, false, false, false, false, false, false⟩

/-- `TextQuery`. -/
structure TextQuery where
  text : List Char
  caseSensitive : Bool
  diacriticsSensitive : Bool
  fileOnly : Bool
  folderOnly : Bool
  matchPath : Bool
  wholeFilename : Bool
  wholeWord : Bool
  deriving DecidableEq, Repr

/-- `RegexQuery`, with the compiled `regex::Regex` kept as its source
pattern text (compilation itself is not modeled; only the AST shape is). -/
structure RegexQuery where
  pattern : List Char
  caseSensitive : Bool
  diacriticsSensitive : Bool
  matchPath : Bool
  deriving DecidableEq, Repr

inductive QueryLiteral where
  | text (t : TextQuery)
  | regex (r : RegexQuery)
  deriving DecidableEq, Repr

/-- `QueryCmp`. -/
inductive QueryCmp where
  | eq | gt | ge | lt | le | range
  deriving DecidableEq, Repr

/-- `QueryFunction`. -/
inductive QueryFunction where
  | size (cmp : QueryCmp) (n : Nat)
  | dateModified (cmp : QueryCmp) (d : QueryDate)
  | dateCreated (cmp : QueryCmp) (d : QueryDate)
  | parent (folder : List Char)
  | ext (exts : List (List Char))
  deriving DecidableEq, Repr

/-- `QueryExpr`. -/
inductive QueryExpr where
  | literal (l : QueryLiteral)
  | function (f : QueryFunction)
  | and (a b : QueryExpr)
  | or (a b : QueryExpr)
  | not (e : QueryExpr)
  deriving DecidableEq, Repr

/-- The all-default empty text query the code falls back to. -/
def emptyTextQuery : TextQuery :=
  ⟨[], false, false, false, false, false, false, false⟩

def emptyTextExpr : QueryExpr := .literal (.text emptyTextQuery)

/-- `exprs_to_and`: left fold into a left-leaning `And` chain. -/
def exprsToAnd : List QueryExpr → QueryExpr
  | [] => emptyTextExpr
  | e :: rest => rest.foldl (fun acc x => .and acc x) e

/-- `get_comparison`: consumes a comparison token, defaults to `Eq`
without consuming otherwise; `None` at end of input. -/
def getComparison (lx : QueryLexer) : Option (QueryCmp × QueryLexer) :=
  match lx.nextToken with
  | (none, _) => none
  | (some tok, lx1) =>
    match tok with
    | .equal => some (.eq, lx1)
    | .greaterThan => some (.gt, lx1)
    | .greaterThanOrEqual => some (.ge, lx1)
    | .lessThan => some (.lt, lx1)
    | .lessThanOrEqual => some (.le, lx1)
    | _ => some (.eq, lx)

/-- `create_query_literal`. -/
def createQueryLiteral (text : List Char) (mods : QueryModifiersTracking) :
    QueryLiteral :=
  if mods.regex then
    .regex ⟨text, mods.caseSensitive, mods.diacriticsSensitive, mods.matchPath⟩
  else
    .text ⟨text, mods.caseSensitive, mods.diacriticsSensitive, mods.fileOnly,
      mods.folderOnly, mods.matchPath, mods.wholeFilename, mods.wholeWord⟩

/-- `parse_modifier`: the modifier keyword table. -/
def parseModifier (ident : List Char) (mods : QueryModifiersTracking) :
    Option QueryModifiersTracking :=
  let l := toLowerStr ident
  if l = "case".toList then some { mods with caseSensitive := true }
  else if l = "nocase".toList then some { mods with caseSensitive := false }
  else if l = "diacritics".toList then
    some { mods with diacriticsSensitive := true }
  else if l = "nodiacritics".toList then
    some { mods with diacriticsSensitive := false }
  else if l = "file".toList ∨ l = "files".toList then
    some { mods with fileOnly := true, folderOnly := false }
  else if l = "nofileonly".toList then some { mods with fileOnly := false }
  else if l = "folder".toList ∨ l = "folders".toList then
    some { mods with folderOnly := true, fileOnly := false }
  else if l = "nofolderonly".toList then some { mods with folderOnly := false }
  else if l = "path".toList then some { mods with matchPath := true }
  else if l = "nopath".toList then some { mods with matchPath := false }
  else if l = "regex".toList then some { mods with regex := true }
  else if l = "noregex".toList then some { mods with regex := false }
  else if l = "wholefilename".toList ∨ l = "wfn".toList ∨ l = "exact".toList
    then some { mods with wholeFilename := true }
  else if l = "nowfn".toList ∨ l = "nowholefilename".toList then
    some { mods with wholeFilename := false }
  else if l = "wholeword".toList ∨ l = "ww".toList then
    some { mods with wholeWord := true }
  else if l = "nowholeword".toList ∨ l = "noww".toList then
    some { mods with wholeWord := false }
  else if l = "wildcards".toList then some { mods with wildcards := true }
  else if l = "nowildcards".toList then some { mods with wildcards := false }
  else none

/-- The `"ext"` loop of `parse_function`: drain the remaining tokens,
collecting idents and string literals. -/
def extGo : Nat → QueryLexer → List (List Char) →
    PResult (List (List Char) × QueryLexer)
  | 0, _, _ => .outOfFuel
  | fuel + 1, lx, acc =>
    match lx.nextToken with
    | (none, lx1) => .ok (acc, lx1)
    | (some tok, lx1) =>
      match tok with
      | .ident e => extGo fuel lx1 (acc ++ [e])
      | .strLit e => extGo fuel lx1 (acc ++ [e])
      | _ => extGo fuel lx1 acc

/-- `parse_function`.  Note it consumes tokens even on the `None` return
paths; the returned lexer reflects that. -/
def parseFunction (env : DateEnv) (fuel : Nat) (lx : QueryLexer)
    (name : List Char) : PResult (Option QueryFunction × QueryLexer) :=
  let lname := toLowerStr name
  if lname = "size".toList then
    match getComparison lx with
    | none => .ok (none, lx)
    | some (cmp, lx1) =>
      match lx1.nextToken with
      | (none, lx2) => .ok (none, lx2)
      | (some tok, lx2) =>
        match tok with
        | .ident numStr =>
          (match parseU64 numStr with
           | some n => .ok (some (.size cmp n), lx2)
           | none => .ok (none, lx2))
        | .strLit numStr =>
          (match parseU64 numStr with
           | some n => .ok (some (.size cmp n), lx2)
           | none => .ok (none, lx2))
        | _ => .ok (none, lx2)
  else if lname = "datemodified".toList ∨ lname = "dm".toList ∨
      lname = "datecreated".toList ∨ lname = "dc".toList then
    match getComparison lx with
    | none => .ok (none, lx)
    | some (cmp, lx1) =>
      match lx1.nextToken with
      | (none, lx2) => .ok (none, lx2)
      | (some tok, lx2) =>
        match tok with
        | .ident dateStr =>
          (let d := queryDateFrom env dateStr
           if "datecreated".toList.isPrefixOf lname ∨ lname = "dc".toList then
             .ok (some (.dateCreated cmp d), lx2)
           else .ok (some (.dateModified cmp d), lx2))
        | .strLit dateStr =>
          (let d := queryDateFrom env dateStr
           if "datecreated".toList.isPrefixOf lname ∨ lname = "dc".toList then
             .ok (some (.dateCreated cmp d), lx2)
           else .ok (some (.dateModified cmp d), lx2))
        | _ => .ok (none, lx2)
  else if lname = "parent".toList ∨ lname = "infolder".toList ∨
      lname = "nosubfolders".toList then
    match lx.nextToken with
    | (none, lx1) => .ok (none, lx1)
    | (some tok, lx1) =>
      match tok with
      | .ident folder => .ok (some (.parent folder), lx1)
      | .strLit folder => .ok (some (.parent folder), lx1)
      | _ => .ok (none, lx1)
  else if lname = "ext".toList then
    match extGo fuel lx [] with
    | .ok (exts, lx1) =>
      if exts.length ≠ 0 then .ok (some (.ext exts), lx1)
      else .ok (none, lx1)
    | .panicked => .panicked
    | .outOfFuel => .outOfFuel
  else .ok (none, lx)

/-- The literal-text loop of `parse_condition`: append token text until
whitespace, `Or`, or end of input (those are left unconsumed). -/
def collectTextGo : Nat → QueryLexer → List Char →
    PResult (List Char × QueryLexer)
  | 0, _, _ => .outOfFuel
  | fuel + 1, lx, acc =>
    match lx.nextToken with
    | (none, _) => .ok (acc, lx)
    | (some .whitespace, _) => .ok (acc, lx)
    | (some .orTok, _) => .ok (acc, lx)
    | (some t, lx1) => collectTextGo fuel lx1 (acc ++ tokenStr t)

/-- The tail of `parse_condition` that builds a literal from collected
text. -/
def finishText (fuel : Nat) (lx : QueryLexer) (tok : QueryToken)
    (mods : QueryModifiersTracking) : PResult (QueryExpr × QueryLexer) :=
  match collectTextGo fuel lx (tokenStr tok) with
  | .ok (text, lx1) => .ok (.literal (createQueryLiteral text mods), lx1)
  | .panicked => .panicked
  | .outOfFuel => .outOfFuel

mutual

/-- `parse_condition`.  The `Whitespace` arm is
`unreachable!("Whitespace should be handled in parse_expression")`, modeled
as `.panicked`. -/
def parseCondition (env : DateEnv) : Nat → QueryLexer →
    QueryModifiersTracking → PResult (QueryExpr × QueryLexer)
  | 0, _, _ => .outOfFuel
  | fuel + 1, lx, mods =>
    match lx.nextToken with
    | (none, lx1) => .ok (emptyTextExpr, lx1)
    | (some tok, lx1) =>
      match tok with
      | .ident ident =>
        if lx1.peekToken = some .colon then
          let lx2 := lx1.nextToken.2
          match parseFunction env fuel lx2 ident with
          | .panicked => .panicked
          | .outOfFuel => .outOfFuel
          | .ok (some func, lx3) => .ok (.function func, lx3)
          | .ok (none, lx3) =>
            match parseModifier ident mods with
            | some newMods => parseCondition env fuel lx3 newMods
            | none => finishText fuel lx3 tok mods
        else finishText fuel lx1 tok mods
      | .notTok =>
        (match parseCondition env fuel lx1 mods with
         | .ok (sub, lx2) => .ok (.not sub, lx2)
         | .panicked => .panicked
         | .outOfFuel => .outOfFuel)
      | .whitespace => .panicked
      | .lessThan => parseExpressionGo env fuel lx1 mods []
      | _ => finishText fuel lx1 tok mods

/-- `parse_expression`, with the accumulated conjuncts explicit. -/
def parseExpressionGo (env : DateEnv) : Nat → QueryLexer →
    QueryModifiersTracking → List QueryExpr →
    PResult (QueryExpr × QueryLexer)
  | 0, _, _, _ => .outOfFuel
  | fuel + 1, lx, mods, exprs =>
    match lx.nextToken with
    | (none, _) => .ok (exprsToAnd exprs, lx)
    | (some .whitespace, lx1) => parseExpressionGo env fuel lx1 mods exprs
    | (some .orTok, lx1) =>
      (match parseExpressionGo env fuel lx1 mods [] with
       | .ok (right, lx2) => .ok (.or (exprsToAnd exprs) right, lx2)
       | .panicked => .panicked
       | .outOfFuel => .outOfFuel)
    | (some _, _) =>
      match parseCondition env fuel lx mods with
      | .ok (e, lx2) => parseExpressionGo env fuel lx2 mods (exprs ++ [e])
      | .panicked => .panicked
      | .outOfFuel => .outOfFuel

end

/-- `parse_query`.  The fuel `2 * len + 4` is enough for every terminating
parse: each fuel-consuming step either consumes input or follows a consuming
step. -/
def parseQuery (env : DateEnv) (input : List Char) : PResult QueryExpr :=
  if (trimChars input).length = 0 then .ok emptyTextExpr
  else
    let lx := QueryLexer.new input
    match parseExpressionGo env (2 * lx.input.length + 4) lx
        QueryModifiersTracking.default [] with
    | .ok (e, _) => .ok e
    | .panicked => .panicked
    | .outOfFuel => .outOfFuel

/-- A concrete `DateEnv` with all timestamps zero (for witnesses; the claim
theorems hold for every environment). -/
def trivDateEnv : DateEnv :=
  ⟨fun _ => (0, 0), fun _ _ _ => (0, 0), fun _ => (0, 0),
   fun _ _ _ => (0, 0), fun _ _ => (0, 0)⟩

/-- **C4 (refuted: code bug).** `parse_query` is *not* total: on the input
`"! a"` the `Not` arm of `parse_condition` recurses with the following
`Whitespace` token at the head of the stream, reaching the
`unreachable!("Whitespace should be handled in parse_expression")` arm —
a panic.  (The claim's own examples — unterminated strings, unknown
modifier and function names — do degrade gracefully; the panic needs a
`'!'` or a recognized modifier prefix followed by whitespace, e.g. `"! a"`
or `"case: x"`.) -/
theorem C4_whitespace_unreachable (env : DateEnv) :
    parseQuery env ("! a".toList) = .panicked := rfl

/-- **C6.** `parse_query("size:>1000 file:\"example.txt\" !ext:tmp")` is the
left-leaning AND chain `And(And(Function(Size(Gt, 1000)),
Literal(Text("example.txt", file_only = true))),
Not(Function(Ext(["tmp"]))))`, for every date environment. -/
theorem C6_example_query (env : DateEnv) :
    parseQuery env ("size:>1000 file:\"example.txt\" !ext:tmp".toList) =
      .ok (.and (.and (.function (.size .gt 1000))
        (.literal (.text ⟨"example.txt".toList, false, false, true, false,
          false, false, false⟩)))
        (.not (.function (.ext ["tmp".toList])))) := rfl

/-- The lowercase full weekday names. -/
def weekdayName : Weekday → List Char
  | .sunday => "sunday".toList
  | .monday => "monday".toList
  | .tuesday => "tuesday".toList
  | .wednesday => "wednesday".toList
  | .thursday => "thursday".toList
  | .friday => "friday".toList
  | .saturday => "saturday".toList

/-- The 3-letter weekday abbreviations. -/
def weekdayAbbrev : Weekday → List Char
  | .sunday => "sun".toList
  | .monday => "mon".toList
  | .tuesday => "tue".toList
  | .wednesday => "wed".toList
  | .thursday => "thu".toList
  | .friday => "fri".toList
  | .saturday => "sat".toList

/-- **C9.** For every date environment: any input that lowercases to
`"unknown"` yields `Unknown`; every weekday name, full or 3-letter, yields
the corresponding `Weekday`, whose discriminants run `Sunday = 0` through
`Saturday = 6`; and `"not-a-date"` matches none of the recognized shapes
and yields the sentinel `Range(0, 0)`. -/
theorem C9_date_shapes (env : DateEnv) :
    (∀ s, toLowerStr s = "unknown".toList →
      queryDateFrom env s = .unknown) ∧
    (∀ w : Weekday, queryDateFrom env (weekdayName w) = .weekday w ∧
      queryDateFrom env (weekdayAbbrev w) = .weekday w) ∧
    [Weekday.sunday, .monday, .tuesday, .wednesday, .thursday, .friday,
      .saturday].map Weekday.toNat = [0, 1, 2, 3, 4, 5, 6] ∧
    queryDateFrom env ("not-a-date".toList) = .range 0 0 := by
  refine ⟨?_, ?_, rfl, rfl⟩
  · intro s hs
    unfold queryDateFrom
    rw [hs]
    rfl
  · intro w
    cases w <;> exact ⟨rfl, rfl⟩

/-- Witness for C9: the mixed-case `"UnKnOwN"`, `"monday"`, and
`"not-a-date"` under the concrete zero environment. -/
theorem C9_date_shapes_witness :
    toLowerStr ("UnKnOwN".toList) = "unknown".toList ∧
    queryDateFrom trivDateEnv ("UnKnOwN".toList) = .unknown ∧
    queryDateFrom trivDateEnv (weekdayName .monday) = .weekday .monday ∧
    queryDateFrom trivDateEnv ("not-a-date".toList) = .range 0 0 :=
  ⟨by decide,
   (C9_date_shapes trivDateEnv).1 ("UnKnOwN".toList) (by decide),
   ((C9_date_shapes trivDateEnv).2.1 .monday).1,
   (C9_date_shapes trivDateEnv).2.2.2⟩


/-! ## §4.2–4.4 Bigram index (`bigram_index.rs`), post-filter, and searcher

A `Bigram` is the `Char × Char` pair `(first, second)`.  The `HashMap` of
postings lists is modeled as an association list in first-occurrence key
order; every result proved below is independent of the entry order (lookups
are keyed, and `query_char`'s bitmap marking commutes). -/

/-- The bigrams of a character list (`for i in 0..chars.len()-1`); empty
below two characters. -/
def bigramsOf (chars : List Char) : List (Char × Char) :=
  List.zip chars chars.tail

/-- `filename_as_str(&element.filename).to_lowercase()` for element `i`
(the handle ranges of a built tree are valid, where the checked slice
equals `sliceStr`). -/
def lowerNameOf (t : FileTree) (i : Nat) : List Char :=
  toLowerStr (FileTree.keyOf t i)

/-- The bigrams the builder extracts from element `i`. -/
def elementBigrams (t : FileTree) (i : Nat) : List (Char × Char) :=
  bigramsOf (lowerNameOf t i)

/-- The builder's raw accumulation for one bigram: element `i` pushed once
per occurrence, in ascending element order. -/
def postingsAcc (t : FileTree) (bg : Char × Char) : List Nat :=
  (List.range t.len).flatMap (fun i =>
    ((elementBigrams t i).filter (fun b => b = bg)).map (fun _ => i))

/-- `Vec::dedup` (removes consecutive duplicates). -/
def dedupConsecNat : List Nat → List Nat
  | [] => []
  | [x] => [x]
  | x :: y :: rest =>
    if x = y then dedupConsecNat (y :: rest)
    else x :: dedupConsecNat (y :: rest)

/-- `indices.sort_unstable(); indices.dedup()`. -/
def rustSortDedup (xs : List Nat) : List Nat :=
  dedupConsecNat (xs.mergeSort (fun a b => decide (a ≤ b)))

/-- First-occurrence key deduplication (the canonical stand-in for
`HashMap` key collection); the fuel is the list length, which is exact. -/
def dedupKeysGo : Nat → List (Char × Char) → List (Char × Char)
  | 0, _ => []
  | _ + 1, [] => []
  | fuel + 1, x :: rest =>
    x :: dedupKeysGo fuel (rest.filter (fun y => y ≠ x))

def dedupKeys (l : List (Char × Char)) : List (Char × Char) :=
  dedupKeysGo l.length l

/-- `create_bigram_reverse_index`: accumulate per-bigram pushes, sort and
deduplicate, compress. -/
def createBigramReverseIndex (t : FileTree) :
    List ((Char × Char) × CompressedPostingsList) :=
  let keys := dedupKeys
    ((List.range t.len).flatMap (fun i => elementBigrams t i))
  keys.map (fun bg =>
    (bg, CompressedPostingsList.new (rustSortDedup (postingsAcc t bg))))

/-- `BigramIndex`. -/
structure BigramIndex where
  index : List ((Char × Char) × CompressedPostingsList)
  numElements : Nat

/-- `BigramIndex::new`. -/
def BigramIndex.new (t : FileTree) : BigramIndex :=
  ⟨createBigramReverseIndex t, t.len⟩

/-- `self.index.get(&bigram)`. -/
def BigramIndex.get (bi : BigramIndex) (bg : Char × Char) :
    Option CompressedPostingsList :=
  (bi.index.find? (fun p => p.1 = bg)).map (fun p => p.2)

/-- `bigrams.dedup()` in `query_word` (consecutive duplicates only). -/
def rustDedupBG : List (Char × Char) → List (Char × Char)
  | [] => []
  | [x] => [x]
  | x :: y :: rest =>
    if x = y then rustDedupBG (y :: rest) else x :: rustDedupBG (y :: rest)

/-- The two-pointer sorted-intersection loop of `query_word`; the fuel
(sum of lengths) is exact. -/
def intersectGo : Nat → List Nat → List Nat → List Nat
  | 0, _, _ => []
  | _ + 1, [], _ => []
  | _ + 1, _ :: _, [] => []
  | fuel + 1, a :: as, b :: bs =>
    if a = b then a :: intersectGo fuel as bs
    else if a < b then intersectGo fuel as (b :: bs)
    else intersectGo fuel (a :: as) bs

/-- Two-pointer intersection of the sorted postings lists. -/
def intersectSorted (xs ys : List Nat) : List Nat :=
  intersectGo (xs.length + ys.length) xs ys

/-- The `for bigram in &bigrams[1..]` loop of `query_word`; a missing
bigram returns the empty result immediately. -/
def queryWordLoop (bi : BigramIndex) :
    List (Char × Char) → List Nat → List Nat
  | [], indices => indices
  | bg :: rest, indices =>
    match bi.get bg with
    | none => []
    | some pl => queryWordLoop bi rest (intersectSorted indices pl.decompress)

/-- `BigramIndex::query_word`.  For the empty word, `chars.len() - 1`
underflows (debug builds panic on the subtraction; release builds wrap and
the first loop access `chars[0]` is out of bounds) — modeled as a panic;
for a single character the bigram list is empty and `bigrams[0]` panics. -/
def queryWord (bi : BigramIndex) (word : List Char) : RustResult (List Nat) :=
  if word.length = 0 then .panicked
  else
    match rustDedupBG (bigramsOf word) with
    | [] => .panicked
    | b0 :: rest =>
      match bi.get b0 with
      | none => .ok []
      | some pl => .ok (queryWordLoop bi rest pl.decompress)

/-- The `indices[index] = true` marking loop of `query_char` (panics on an
out-of-range posting). -/
def markAll (bits : List Bool) : List Nat → RustResult (List Bool)
  | [] => .ok bits
  | i :: rest =>
    if i < bits.length then markAll (bits.set i true) rest
    else .panicked

/-- The entry loop of `query_char` over the index. -/
def queryCharGo (c : Char) :
    List ((Char × Char) × CompressedPostingsList) → List Bool →
      RustResult (List Bool)
  | [], bits => .ok bits
  | (bg, pl) :: rest, bits =>
    if bg.1 = c ∨ bg.2 = c then
      match markAll bits pl.decompress with
      | .ok bits1 => queryCharGo c rest bits1
      | .panicked => .panicked
    else queryCharGo c rest bits

/-- `enumerate().filter_map(..)`: the indices whose bit is set. -/
def trueIndices (bits : List Bool) : List Nat :=
  bits.enum.filterMap (fun p => if p.2 then some p.1 else none)

/-- `BigramIndex::query_char`. -/
def queryChar (bi : BigramIndex) (c : Char) : RustResult (List Nat) :=
  match queryCharGo c bi.index (List.replicate bi.numElements false) with
  | .ok bits => .ok (trueIndices bits)
  | .panicked => .panicked

/-- Substring containment (some suffix has the needle as prefix). -/
def containsSub (hay needle : List Char) : Bool :=
  (List.range (hay.length + 1)).any (fun k => needle.isPrefixOf (hay.drop k))

/-- `post_filter`'s match test: the pattern is `regex::escape(query)`
compiled case-insensitively, so `is_match` is case-insensitive substring
containment (per-`Char` lowering, exact on ASCII). -/
def regexMatchCI (name pattern : List Char) : Bool :=
  containsSub (toLowerStr name) (toLowerStr pattern)

/-- The `indices.retain(..)` loop of `post_filter`; `get_filename` panics
on an out-of-range index. -/
def postFilterGo (t : FileTree) (q : List Char) :
    List Nat → RustResult (List Nat)
  | [] => .ok []
  | i :: rest =>
    match FileTree.getFilename t i with
    | .panicked => .panicked
    | .ok name =>
      match postFilterGo t q rest with
      | .panicked => .panicked
      | .ok kept =>
        .ok (if regexMatchCI name q then i :: kept else kept)

/-- `post_filter::post_filter`. -/
def postFilter (t : FileTree) (indices : List Nat) (q : List Char) :
    RustResult (List Nat) :=
  postFilterGo t q indices

/-- `Searcher::search`: lowercase the query; empty query returns the full
range, a single character uses `query_char`, otherwise `query_word` with the
post-filter applied beyond two characters; then the optional sort. -/
def Searcher.search (t : FileTree) (bi : BigramIndex) (query : List Char)
    (sortField : Option SortField) (sortOrder : Option SortOrder) :
    RustResult (List Nat) :=
  let q := toLowerStr query
  let base : RustResult (List Nat) :=
    match q with
    | [] => .ok (List.range t.len)
    | [c] => queryChar bi c
    | _ =>
      match queryWord bi q with
      | .panicked => .panicked
      | .ok indices =>
        if 2 < q.length then postFilter t indices q
        else .ok indices
  match base with
  | .panicked => .panicked
  | .ok indices =>
    match sortField with
    | none => .ok indices
    | some f => sortBy t indices f (sortOrder.getD .ascending)


/-- `Char.ofNat` round-trips on valid code points. -/
theorem char_toNat_ofNat (n : Nat) (h : n.isValidChar) :
    (Char.ofNat n).toNat = n := by
  unfold Char.ofNat
  rw [dif_pos h]
  unfold Char.ofNatAux Char.toNat
  simp only [UInt32.toNat]
  rfl

/-- ASCII lowering is idempotent. -/
theorem char_toLower_idem (c : Char) :
    Char.toLower (Char.toLower c) = Char.toLower c := by
  unfold Char.toLower
  by_cases h : c.toNat ≥ 65 ∧ c.toNat ≤ 90
  · rw [if_pos h]
    have ht : (Char.ofNat (c.toNat + 32)).toNat = c.toNat + 32 :=
      char_toNat_ofNat _ (by left; omega)
    rw [if_neg (by omega)]
  · rw [if_neg h, if_neg h]

theorem toLowerStr_idem (s : List Char) :
    toLowerStr (toLowerStr s) = toLowerStr s := by
  unfold toLowerStr
  rw [List.map_map]
  apply List.map_congr_left
  intro c _
  exact char_toLower_idem c

theorem bigramsOf_nil : bigramsOf [] = [] := rfl

theorem bigramsOf_singleton (x : Char) : bigramsOf [x] = [] := rfl

theorem bigramsOf_cons₂ (x y : Char) (rest : List Char) :
    bigramsOf (x :: y :: rest) = (x, y) :: bigramsOf (y :: rest) := rfl

theorem bigramsOf_cons_subset {bg : Char × Char} (x : Char) {l : List Char}
    (h : bg ∈ bigramsOf l) : bg ∈ bigramsOf (x :: l) := by
  cases l with
  | nil => simp [bigramsOf_nil] at h
  | cons y rest =>
    rw [bigramsOf_cons₂]
    exact List.mem_cons_of_mem _ h

theorem bigramsOf_append_subset {bg : Char × Char} {q : List Char}
    (r : List Char) (h : bg ∈ bigramsOf q) : bg ∈ bigramsOf (q ++ r) := by
  induction q with
  | nil => simp [bigramsOf_nil] at h
  | cons x xs ih =>
    cases xs with
    | nil => simp [bigramsOf_singleton] at h
    | cons y rest =>
      rw [bigramsOf_cons₂] at h
      simp only [List.cons_append]
      rw [bigramsOf_cons₂]
      rcases List.mem_cons.mp h with rfl | h2
      · exact List.mem_cons_self _ _
      · exact List.mem_cons_of_mem _ (ih h2)

theorem bigramsOf_drop_subset {bg : Char × Char} (k : Nat) {l : List Char}
    (h : bg ∈ bigramsOf (l.drop k)) : bg ∈ bigramsOf l := by
  induction k generalizing l with
  | zero => simpa using h
  | succ m ih =>
    cases l with
    | nil => simpa using h
    | cons x rest =>
      rw [List.drop_succ_cons] at h
      exact bigramsOf_cons_subset x (ih h)

/-- A query substring forces all of its bigrams into the text's bigrams. -/
theorem contains_bigrams_subset {name q : List Char}
    (h : containsSub name q = true) :
    ∀ bg ∈ bigramsOf q, bg ∈ bigramsOf name := by
  intro bg hbg
  unfold containsSub at h
  obtain ⟨k, _, hpre⟩ := List.any_eq_true.mp h
  obtain ⟨r, hr⟩ := List.isPrefixOf_iff_prefix.mp hpre
  exact bigramsOf_drop_subset k
    (hr ▸ bigramsOf_append_subset r hbg)

theorem mem_dedupConsecNat {a : Nat} : ∀ {l : List Nat},
    a ∈ dedupConsecNat l ↔ a ∈ l
  | [] => by simp [dedupConsecNat]
  | [x] => by simp [dedupConsecNat]
  | x :: y :: rest => by
    rw [dedupConsecNat]
    by_cases hxy : x = y
    · rw [if_pos hxy]
      rw [mem_dedupConsecNat (l := y :: rest)]
      subst hxy
      simp
    · rw [if_neg hxy]
      simp only [List.mem_cons]
      rw [mem_dedupConsecNat (l := y :: rest)]
      simp

theorem sorted_dedupConsecNat : ∀ {l : List Nat},
    List.Pairwise (· ≤ ·) l →
      List.Pairwise (· < ·) (dedupConsecNat l)
  | [], _ => by simp [dedupConsecNat]
  | [x], _ => by simp [dedupConsecNat]
  | x :: y :: rest, hp => by
    rw [dedupConsecNat]
    have htail : List.Pairwise (· ≤ ·) (y :: rest) := hp.tail
    by_cases hxy : x = y
    · rw [if_pos hxy]
      exact sorted_dedupConsecNat htail
    · rw [if_neg hxy]
      refine List.pairwise_cons.mpr ⟨?_, sorted_dedupConsecNat htail⟩
      intro a ha
      have hamem : a ∈ y :: rest := mem_dedupConsecNat.mp ha
      have hxle : ∀ b ∈ y :: rest, x ≤ b := (List.pairwise_cons.mp hp).1
      rcases List.mem_cons.mp hamem with rfl | har
      · exact lt_of_le_of_ne (hxle a (by simp)) hxy
      · have hya : y ≤ a := (List.pairwise_cons.mp htail).1 a har
        have hxb : x ≤ y := hxle y (by simp)
        by_cases hxa : x = a
        · subst hxa
          exact absurd (le_antisymm hxb hya) hxy
        · exact lt_of_le_of_ne (hxle a hamem) hxa

theorem rustSortDedup_spec (xs : List Nat) :
    List.Pairwise (· < ·) (rustSortDedup xs) ∧
      (∀ a, a ∈ rustSortDedup xs ↔ a ∈ xs) := by
  unfold rustSortDedup
  have hsorted : List.Pairwise (fun a b => decide (a ≤ b) = true)
      (xs.mergeSort (fun a b => decide (a ≤ b))) :=
    List.sorted_mergeSort
      (by intro a b c h1 h2; simp at h1 h2 ⊢; omega)
      (by intro a b; simp; omega) xs
  have hsorted2 : List.Pairwise (· ≤ ·)
      (xs.mergeSort (fun a b => decide (a ≤ b))) :=
    hsorted.imp (fun h => by simpa using h)
  refine ⟨sorted_dedupConsecNat hsorted2, ?_⟩
  intro a
  rw [mem_dedupConsecNat]
  exact (List.mergeSort_perm xs _).mem_iff

/-- Two strictly sorted lists with the same members are equal. -/
theorem sorted_lt_eq_of_mem_iff {xs ys : List Nat}
    (hx : List.Pairwise (· < ·) xs) (hy : List.Pairwise (· < ·) ys)
    (h : ∀ a, a ∈ xs ↔ a ∈ ys) : xs = ys := by
  haveI : IsAntisymm Nat (· < ·) :=
    ⟨fun a b h1 h2 => absurd (h1.trans h2) (lt_irrefl a)⟩
  have hnx : xs.Nodup := hx.imp (fun h => Nat.ne_of_lt h)
  have hny : ys.Nodup := hy.imp (fun h => Nat.ne_of_lt h)
  exact List.eq_of_perm_of_sorted
    ((List.perm_ext_iff_of_nodup hnx hny).mpr h) hx hy


/-- The per-bigram postings list that sorting and deduplicating the
builder's accumulation produces. -/
def postingsFor (t : FileTree) (bg : Char × Char) : List Nat :=
  (List.range t.len).filter (fun i => decide (bg ∈ elementBigrams t i))

theorem mem_postingsAcc {t : FileTree} {bg : Char × Char} {a : Nat} :
    a ∈ postingsAcc t bg ↔ a < t.len ∧ bg ∈ elementBigrams t a := by
  unfold postingsAcc
  rw [List.mem_flatMap]
  constructor
  · rintro ⟨i, hi, hmem⟩
    obtain ⟨x, hx, rfl⟩ := List.mem_map.mp hmem
    have := List.mem_filter.mp hx
    refine ⟨List.mem_range.mp hi, ?_⟩
    have hba : x = bg := by simpa using this.2
    exact hba ▸ this.1
  · rintro ⟨ha, hmem⟩
    refine ⟨a, List.mem_range.mpr ha, ?_⟩
    apply List.mem_map.mpr
    exact ⟨bg, List.mem_filter.mpr ⟨hmem, by simp⟩, rfl⟩

theorem sorted_postingsFor (t : FileTree) (bg : Char × Char) :
    List.Pairwise (· < ·) (postingsFor t bg) :=
  (List.pairwise_lt_range t.len).filter _

theorem mem_postingsFor {t : FileTree} {bg : Char × Char} {a : Nat} :
    a ∈ postingsFor t bg ↔ a < t.len ∧ bg ∈ elementBigrams t a := by
  unfold postingsFor
  rw [List.mem_filter, List.mem_range]
  simp

/-- Sorting and deduplicating the accumulated pushes gives exactly the
filtered range. -/
theorem rustSortDedup_postingsAcc (t : FileTree) (bg : Char × Char) :
    rustSortDedup (postingsAcc t bg) = postingsFor t bg := by
  obtain ⟨hsort, hmem⟩ := rustSortDedup_spec (postingsAcc t bg)
  apply sorted_lt_eq_of_mem_iff hsort (sorted_postingsFor t bg)
  intro a
  rw [hmem a, mem_postingsAcc, mem_postingsFor]

theorem find?_keys_map (keys : List (Char × Char))
    (f : (Char × Char) → CompressedPostingsList) (bg : Char × Char) :
    (List.find? (fun p => p.1 = bg) (keys.map (fun k => (k, f k)))).map
        (fun p => p.2) =
      if bg ∈ keys then some (f bg) else none := by
  induction keys with
  | nil => simp
  | cons k kt ih =>
    rw [List.map_cons]
    by_cases hk : k = bg
    · subst hk
      simp
    · rw [List.find?_cons_of_neg _ (by simp [hk])]
      rw [ih]
      by_cases hbg : bg ∈ kt
      · rw [if_pos hbg, if_pos (List.mem_cons_of_mem _ hbg)]
      · rw [if_neg hbg, if_neg (by
          intro hc
          rcases List.mem_cons.mp hc with h | h
          · exact hk h.symm
          · exact hbg h)]

theorem mem_dedupKeysGo {bg : Char × Char} :
    ∀ (fuel : Nat) (l : List (Char × Char)), l.length ≤ fuel →
      (bg ∈ dedupKeysGo fuel l ↔ bg ∈ l) := by
  intro fuel
  induction fuel with
  | zero =>
    intro l hl
    have hnil : l = [] := List.length_eq_zero.mp (by omega)
    subst hnil
    simp [dedupKeysGo]
  | succ m ih =>
    intro l hl
    cases l with
    | nil => simp [dedupKeysGo]
    | cons x rest =>
      rw [dedupKeysGo]
      simp only [List.mem_cons]
      rw [ih (rest.filter (fun y => y ≠ x))
        (by have := List.length_filter_le (fun y => y ≠ x) rest
            simp at hl
            omega)]
      by_cases hbx : bg = x
      · subst hbx
        simp
      · simp only [List.mem_filter]
        constructor
        · rintro (h | ⟨h, _⟩)
          · exact Or.inl h
          · exact Or.inr h
        · rintro (h | h)
          · exact Or.inl h
          · exact Or.inr ⟨h, by simpa using hbx⟩

theorem mem_dedupKeys {bg : Char × Char} {l : List (Char × Char)} :
    bg ∈ dedupKeys l ↔ bg ∈ l :=
  mem_dedupKeysGo l.length l le_rfl

/-- Lookup in the built index: the compressed sorted postings when the
bigram occurs in some filename, `None` otherwise. -/
theorem get_new_eq (t : FileTree) (bg : Char × Char) :
    (BigramIndex.new t).get bg =
      if bg ∈ (List.range t.len).flatMap (fun i => elementBigrams t i)
      then some (CompressedPostingsList.new
        (rustSortDedup (postingsAcc t bg)))
      else none := by
  unfold BigramIndex.new BigramIndex.get createBigramReverseIndex
  rw [find?_keys_map]
  by_cases hmem : bg ∈ (List.range t.len).flatMap (fun i => elementBigrams t i)
  · rw [if_pos (mem_dedupKeys.mpr hmem), if_pos hmem]
  · rw [if_neg (fun hc => hmem (mem_dedupKeys.mp hc)), if_neg hmem]

/-- Round trip for the compressed postings of any strictly sorted bounded
list. -/
theorem decompress_new (xs : List Nat)
    (hs : List.Pairwise (· < ·) xs) (hb : ∀ x ∈ xs, x < wsize) :
    (CompressedPostingsList.new xs).decompress = xs := by
  unfold CompressedPostingsList.new CompressedPostingsList.decompress
  exact decompress_compressBytes xs 0 (fun h _ => Nat.zero_le h) hs.chain' hb

theorem intersectGo_eq_filter :
    ∀ (fuel : Nat) (xs ys : List Nat), xs.length + ys.length ≤ fuel →
      List.Pairwise (· < ·) xs → List.Pairwise (· < ·) ys →
      intersectGo fuel xs ys = xs.filter (fun a => decide (a ∈ ys)) := by
  intro fuel
  induction fuel with
  | zero =>
    intro xs ys hlen _ _
    have hx : xs = [] := List.length_eq_zero.mp (by omega)
    have hy : ys = [] := List.length_eq_zero.mp (by omega)
    subst hx
    subst hy
    rfl
  | succ m ih =>
    intro xs ys hlen hxs hys
    match xs, ys with
    | [], ys => rfl
    | x :: xt, [] =>
      rw [intersectGo]
      simp
    | a :: as, b :: bs =>
      rw [intersectGo]
      by_cases hab : a = b
      · rw [if_pos hab]
        have hbnotas : ∀ x ∈ as, ¬ (x ∈ b :: bs → x ∈ bs) → False := by
          intro x hx h; exact h (fun hxb => by
            rcases List.mem_cons.mp hxb with rfl | h2
            · exact absurd (hab ▸ (List.pairwise_cons.mp hxs).1 x hx)
                (lt_irrefl x)
            · exact h2)
        rw [ih as bs (by simp at hlen ⊢; omega) hxs.tail hys.tail]
        rw [List.filter_cons]
        rw [show (decide (a ∈ b :: bs)) = true from by simp [hab]]
        congr 1
        apply List.filter_congr
        intro x hx
        have hax : a < x := (List.pairwise_cons.mp hxs).1 x hx
        have : (x ∈ b :: bs) ↔ (x ∈ bs) := by
          constructor
          · intro hxb
            rcases List.mem_cons.mp hxb with rfl | h2
            · exact absurd (hab ▸ hax) (lt_irrefl x)
            · exact h2
          · exact List.mem_cons_of_mem b
        simp [this]
      · rw [if_neg hab]
        by_cases hlt : a < b
        · rw [if_pos hlt]
          rw [ih as (b :: bs) (by simp at hlen ⊢; omega) hxs.tail hys]
          rw [List.filter_cons]
          rw [show (decide (a ∈ b :: bs)) = false from by
            simp only [decide_eq_false_iff_not]
            intro hc
            rcases List.mem_cons.mp hc with rfl | h2
            · exact lt_irrefl a hlt
            · exact absurd ((List.pairwise_cons.mp hys).1 a h2) (by omega)]
          simp
        · rw [if_neg hlt]
          rw [ih (a :: as) bs (by simp at hlen ⊢; omega) hxs hys.tail]
          apply List.filter_congr
          intro x hx
          have hbx : b < x := by
            rcases List.mem_cons.mp hx with rfl | h2
            · omega
            · have := (List.pairwise_cons.mp hxs).1 x h2
              omega
          have : (x ∈ b :: bs) ↔ (x ∈ bs) := by
            constructor
            · intro hxb
              rcases List.mem_cons.mp hxb with rfl | h2
              · exact absurd hbx (lt_irrefl x)
              · exact h2
            · exact List.mem_cons_of_mem b
          simp [this]

theorem mem_rustDedupBG {bg : Char × Char} : ∀ {l : List (Char × Char)},
    bg ∈ rustDedupBG l ↔ bg ∈ l
  | [] => by simp [rustDedupBG]
  | [x] => by simp [rustDedupBG]
  | x :: y :: rest => by
    rw [rustDedupBG]
    by_cases hxy : x = y
    · rw [if_pos hxy]
      rw [mem_rustDedupBG (l := y :: rest)]
      subst hxy
      simp
    · rw [if_neg hxy]
      simp only [List.mem_cons]
      rw [mem_rustDedupBG (l := y :: rest)]
      simp

theorem rustDedupBG_ne_nil : ∀ {l : List (Char × Char)}, l ≠ [] →
    rustDedupBG l ≠ []
  | [], h => absurd rfl h
  | [x], _ => by simp [rustDedupBG]
  | x :: y :: rest, _ => by
    rw [rustDedupBG]
    by_cases hxy : x = y
    · rw [if_pos hxy]
      exact rustDedupBG_ne_nil (by simp)
    · rw [if_neg hxy]
      simp


theorem all_congr_mem {α : Type} {l1 l2 : List α}
    (h : ∀ x, x ∈ l1 ↔ x ∈ l2) (f : α → Bool) : l1.all f = l2.all f := by
  cases h1 : l1.all f with
  | true =>
    rw [List.all_eq_true] at h1
    exact (List.all_eq_true.mpr (fun x hx => h1 x ((h x).mpr hx))).symm
  | false =>
    rw [List.all_eq_false] at h1
    obtain ⟨x, hx, hfx⟩ := h1
    exact (List.all_eq_false.mpr ⟨x, (h x).mp hx, hfx⟩).symm

/-- Decompressing the stored postings of the built index gives the filtered
range (the strictly increasing list of elements containing the bigram). -/
theorem decompress_payload (t : FileTree) (hsize : t.len ≤ wsize)
    (bg : Char × Char) :
    (CompressedPostingsList.new
      (rustSortDedup (postingsAcc t bg))).decompress = postingsFor t bg := by
  rw [rustSortDedup_postingsAcc]
  exact decompress_new _ (sorted_postingsFor t bg)
    (fun x hx => lt_of_lt_of_le (mem_postingsFor.mp hx).1 hsize)

theorem intersect_filter_range (n : Nat) (p q : Nat → Bool) :
    intersectSorted ((List.range n).filter p) ((List.range n).filter q) =
      (List.range n).filter (fun i => p i && q i) := by
  unfold intersectSorted
  rw [intersectGo_eq_filter _ _ _ le_rfl
    ((List.pairwise_lt_range n).filter p) ((List.pairwise_lt_range n).filter q)]
  rw [List.filter_filter]
  apply List.filter_congr
  intro a ha
  have hmem : (a ∈ (List.range n).filter q) ↔ q a = true := by
    rw [List.mem_filter]
    simp [ha]
  cases hq : q a <;> cases hp : p a <;> simp [hmem, hq, hp]

theorem queryWordLoop_spec (t : FileTree) (hsize : t.len ≤ wsize) :
    ∀ (bgs : List (Char × Char)) (p : Nat → Bool),
      queryWordLoop (BigramIndex.new t) bgs ((List.range t.len).filter p) =
        (List.range t.len).filter (fun i =>
          p i && bgs.all (fun bg => decide (bg ∈ elementBigrams t i))) := by
  intro bgs
  induction bgs with
  | nil =>
    intro p
    simp [queryWordLoop]
  | cons bg rest ih =>
    intro p
    rw [queryWordLoop, get_new_eq]
    by_cases habs : bg ∈ (List.range t.len).flatMap
        (fun i => elementBigrams t i)
    · rw [if_pos habs]
      show queryWordLoop (BigramIndex.new t) rest
        (intersectSorted ((List.range t.len).filter p)
          (CompressedPostingsList.new
            (rustSortDedup (postingsAcc t bg))).decompress) = _
      rw [decompress_payload t hsize bg]
      show queryWordLoop (BigramIndex.new t) rest
        (intersectSorted ((List.range t.len).filter p)
          ((List.range t.len).filter
            (fun i => decide (bg ∈ elementBigrams t i)))) = _
      rw [intersect_filter_range]
      rw [ih (fun i => p i && decide (bg ∈ elementBigrams t i))]
      apply List.filter_congr
      intro a _
      simp [List.all_cons, Bool.and_assoc]
    · rw [if_neg habs]
      show ([] : List Nat) = _
      symm
      rw [List.filter_eq_nil_iff]
      intro a ha hpred
      simp only [Bool.and_eq_true, List.all_eq_true] at hpred
      exact habs (List.mem_flatMap.mpr
        ⟨a, ha, by simpa using hpred.2 bg (by simp)⟩)

theorem queryWord_new_spec (t : FileTree) (hsize : t.len ≤ wsize)
    (q : List Char) (h2 : 2 ≤ q.length) :
    queryWord (BigramIndex.new t) q =
      .ok ((List.range t.len).filter (fun i =>
        (bigramsOf q).all (fun bg => decide (bg ∈ elementBigrams t i)))) := by
  cases q with
  | nil => simp at h2
  | cons a q1 =>
  cases q1 with
  | nil => simp at h2
  | cons b qt =>
  unfold queryWord
  rw [if_neg (by simp)]
  have hne : bigramsOf (a :: b :: qt) ≠ [] := by
    rw [bigramsOf_cons₂]
    simp
  cases hd : rustDedupBG (bigramsOf (a :: b :: qt)) with
  | nil => exact absurd hd (rustDedupBG_ne_nil hne)
  | cons b0 rest =>
  have hmemdd : ∀ x, x ∈ b0 :: rest ↔ x ∈ bigramsOf (a :: b :: qt) :=
    fun x => hd ▸ mem_rustDedupBG
  dsimp only
  rw [get_new_eq]
  by_cases habs : b0 ∈ (List.range t.len).flatMap
      (fun i => elementBigrams t i)
  · rw [if_pos habs]
    show RustResult.ok (queryWordLoop (BigramIndex.new t) rest
      (CompressedPostingsList.new
        (rustSortDedup (postingsAcc t b0))).decompress) = _
    rw [decompress_payload t hsize b0]
    show RustResult.ok (queryWordLoop (BigramIndex.new t) rest
      ((List.range t.len).filter
        (fun i => decide (b0 ∈ elementBigrams t i)))) = _
    rw [queryWordLoop_spec t hsize rest]
    congr 1
    apply List.filter_congr
    intro i _
    have := all_congr_mem hmemdd
      (fun bg => decide (bg ∈ elementBigrams t i))
    rw [← this]
    simp [List.all_cons]
  · rw [if_neg habs]
    show RustResult.ok ([] : List Nat) = _
    congr 1
    symm
    rw [List.filter_eq_nil_iff]
    intro i hi hpred
    rw [List.all_eq_true] at hpred
    have hb0 : b0 ∈ bigramsOf (a :: b :: qt) := (hmemdd b0).mp (by simp)
    exact habs (List.mem_flatMap.mpr ⟨i, hi, by simpa using hpred b0 hb0⟩)

theorem postFilterGo_spec (t : FileTree) (q : List Char) :
    ∀ (l : List Nat), (∀ i ∈ l, i < t.len) →
      postFilterGo t q l =
        .ok (l.filter (fun i => regexMatchCI (FileTree.keyOf t i) q)) := by
  intro l
  induction l with
  | nil => intro _; rfl
  | cons i rest ih =>
    intro hb
    have hi : i < t.len := hb i (by simp)
    obtain ⟨e, he⟩ : ∃ e, t.elements[i]? = some e :=
      ⟨t.elements.get ⟨i, hi⟩, List.getElem?_eq_getElem hi⟩
    rw [postFilterGo]
    rw [show FileTree.getFilename t i = .ok (sliceStr t.strbuf e.filename)
      from by unfold FileTree.getFilename; rw [he]]
    rw [ih (fun j hj => hb j (by simp [hj]))]
    rw [List.filter_cons]
    have hkey : FileTree.keyOf t i = sliceStr t.strbuf e.filename := by
      unfold FileTree.keyOf
      rw [he]
    rw [hkey]

theorem markAll_ok : ∀ (idxs : List Nat) (bits : List Bool),
    (∀ i ∈ idxs, i < bits.length) →
      ∃ b', markAll bits idxs = .ok b' ∧ b'.length = bits.length := by
  intro idxs
  induction idxs with
  | nil => intro bits _; exact ⟨bits, rfl, rfl⟩
  | cons i rest ih =>
    intro bits hb
    rw [markAll, if_pos (hb i (by simp))]
    obtain ⟨b', hrun, hlen⟩ := ih (bits.set i true)
      (fun j hj => by rw [List.length_set]; exact hb j (by simp [hj]))
    exact ⟨b', hrun, by rw [hlen, List.length_set]⟩

theorem queryCharGo_ok (c : Char) :
    ∀ (entries : List ((Char × Char) × CompressedPostingsList))
      (bits : List Bool),
      (∀ e ∈ entries, ∀ i ∈ (Prod.snd e).decompress, i < bits.length) →
      ∃ b', queryCharGo c entries bits = .ok b' ∧
        b'.length = bits.length := by
  intro entries
  induction entries with
  | nil => intro bits _; exact ⟨bits, rfl, rfl⟩
  | cons e rest ih =>
    intro bits hb
    obtain ⟨bg, pl⟩ := e
    rw [queryCharGo]
    by_cases hc : bg.1 = c ∨ bg.2 = c
    · rw [if_pos hc]
      obtain ⟨b1, hm, hlen1⟩ := markAll_ok pl.decompress bits
        (hb (bg, pl) (by simp))
      rw [hm]
      obtain ⟨b', hrun, hlen⟩ := ih b1
        (fun e he i hi => hlen1 ▸ hb e (by simp [he]) i hi)
      exact ⟨b', hrun, by rw [hlen, hlen1]⟩
    · rw [if_neg hc]
      exact ih bits (fun e he i hi => hb e (by simp [he]) i hi)

theorem queryChar_new_ok (t : FileTree) (hsize : t.len ≤ wsize) (c : Char) :
    ∃ r, queryChar (BigramIndex.new t) c = .ok r := by
  have hb : ∀ e ∈ (BigramIndex.new t).index,
      ∀ i ∈ (Prod.snd e).decompress,
        i < (List.replicate t.len (false : Bool)).length := by
    intro e he i hi
    unfold BigramIndex.new createBigramReverseIndex at he
    obtain ⟨bg, _, rfl⟩ := List.mem_map.mp he
    rw [decompress_payload t hsize bg] at hi
    rw [List.length_replicate]
    exact (mem_postingsFor.mp hi).1
  obtain ⟨b', hgo, _⟩ := queryCharGo_ok c (BigramIndex.new t).index
    (List.replicate t.len false) hb
  unfold queryChar
  rw [show (BigramIndex.new t).numElements = t.len from rfl, hgo]
  exact ⟨trueIndices b', rfl⟩


/-- **C10 (amended).** On every built `BigramIndex`, `query_word` returns
normally for every word of at least two characters (for any tree small
enough to index with `usize`), and `query_char` returns normally for every
character.  The original claim fails for the empty and the single-character
word, where `query_word` panics (`chars.len() - 1` underflow, then
`bigrams[0]` out of bounds). -/
theorem C10_query_no_panic (t : FileTree) (word : List Char) (c : Char)
    (hsize : t.len ≤ 2 ^ 64) (h2 : 2 ≤ word.length) :
    (∃ r, queryWord (BigramIndex.new t) word = .ok r) ∧
    (∃ r, queryChar (BigramIndex.new t) c = .ok r) := by
  constructor
  · cases word with
    | nil => simp at h2
    | cons a q1 =>
    cases q1 with
    | nil => simp at h2
    | cons b qt =>
    unfold queryWord
    rw [if_neg (by simp)]
    have hne : bigramsOf (a :: b :: qt) ≠ [] := by
      rw [bigramsOf_cons₂]
      simp
    cases hd : rustDedupBG (bigramsOf (a :: b :: qt)) with
    | nil => exact absurd hd (rustDedupBG_ne_nil hne)
    | cons b0 rest =>
      dsimp only
      cases hg : (BigramIndex.new t).get b0 with
      | none => exact ⟨[], rfl⟩
      | some pl => exact ⟨_, rfl⟩
  · exact queryChar_new_ok t hsize c

/-- **C1.** For every tree and every query whose lowercased form has more
than two characters, `search(query, None, None)` on the searcher built from
the tree returns exactly the indices whose lowercased filename contains the
lowercased query as a substring, in strictly increasing order with no
duplicates (the bigram candidate set is a superset of the true matches —
every bigram of a contained query occurs in the filename — and the
post-filter keeps exactly the true matches). -/
theorem C1_search_exact (t : FileTree) (query : List Char)
    (hsize : t.len ≤ 2 ^ 64)
    (hq : 2 < (toLowerStr query).length) :
    ∃ res, Searcher.search t (BigramIndex.new t) query none none = .ok res ∧
      res = (List.range t.len).filter (fun i =>
        containsSub (toLowerStr (FileTree.keyOf t i)) (toLowerStr query)) ∧
      List.Pairwise (· < ·) res := by
  have hws : t.len ≤ wsize := hsize
  refine ⟨(List.range t.len).filter (fun i =>
      containsSub (toLowerStr (FileTree.keyOf t i)) (toLowerStr query)),
    ?_, rfl, (List.pairwise_lt_range t.len).filter _⟩
  simp only [Searcher.search]
  cases hshape : toLowerStr query with
  | nil => rw [hshape] at hq; simp at hq
  | cons a q1 =>
  cases q1 with
  | nil => rw [hshape] at hq; simp at hq
  | cons b q2 =>
  cases q2 with
  | nil => rw [hshape] at hq; simp at hq
  | cons c3 qt =>
  have hql : toLowerStr (a :: b :: c3 :: qt) = a :: b :: c3 :: qt := by
    rw [← hshape]
    exact toLowerStr_idem query
  dsimp only
  rw [queryWord_new_spec t hws (a :: b :: c3 :: qt) (by simp)]
  dsimp only
  rw [if_pos (by simp only [List.length_cons]; omega)]
  unfold postFilter
  rw [postFilterGo_spec t (a :: b :: c3 :: qt) _
    (fun i hi => List.mem_range.mp (List.mem_filter.mp hi).1)]
  dsimp only
  congr 1
  rw [List.filter_filter]
  apply List.filter_congr
  intro i _
  unfold regexMatchCI
  rw [hql]
  cases hcont : containsSub (toLowerStr (FileTree.keyOf t i))
      (a :: b :: c3 :: qt) with
  | false => simp
  | true =>
    simp only [Bool.true_and]
    rw [List.all_eq_true]
    intro bg hbg
    simp only [decide_eq_true_eq]
    show bg ∈ bigramsOf (lowerNameOf t i)
    exact contains_bigrams_subset hcont bg hbg

/-- **C10 (counterexample).** `query_word` panics on the empty and on a
single-character word (here on the index of the fresh root-only tree). -/
theorem C10_counterexample :
    queryWord (BigramIndex.new (FileTree.withCapacity 0)) [] = .panicked ∧
    queryWord (BigramIndex.new (FileTree.withCapacity 0)) ['a'] =
      .panicked :=
  ⟨rfl, rfl⟩

/-- Witness for C10 on the root-only tree with the word `"ab"`. -/
theorem C10_query_no_panic_witness :
    (FileTree.withCapacity 0).len ≤ 2 ^ 64 ∧ 2 ≤ ("ab".toList).length ∧
    ((∃ r, queryWord (BigramIndex.new (FileTree.withCapacity 0))
        ("ab".toList) = .ok r) ∧
     (∃ r, queryChar (BigramIndex.new (FileTree.withCapacity 0)) 'a' =
        .ok r)) :=
  ⟨by decide, by decide,
   C10_query_no_panic (FileTree.withCapacity 0) ("ab".toList) 'a'
     (by decide) (by decide)⟩

def c1wops : List FOp :=
  [FOp.upsertOp ("ab0cde".toList) none none none 0,
   FOp.upsertOp ("xcdy".toList) none none none 0]

def c1wtree : FileTree :=
  match buildTree 3 c1wops with
  | .ok t => t
  | .panicked => FileTree.withCapacity 0

/-- Witness for C1: the query `"CDe"` against a tree holding `"ab0cde"` and
`"xcdy"`. -/
theorem C1_search_exact_witness :
    c1wtree.len ≤ 2 ^ 64 ∧ 2 < (toLowerStr ("CDe".toList)).length ∧
    ∃ res, Searcher.search c1wtree (BigramIndex.new c1wtree)
        ("CDe".toList) none none = .ok res ∧
      res = (List.range c1wtree.len).filter (fun i =>
        containsSub (toLowerStr (FileTree.keyOf c1wtree i))
          (toLowerStr ("CDe".toList))) ∧
      List.Pairwise (· < ·) res :=
  ⟨by decide, by decide,
   C1_search_exact c1wtree ("CDe".toList) (by decide) (by decide)⟩


end VaultSeek
